import Mathlib

/-!
Verification development for the koishi command-dispatch core:
the permission resolution engine (`packages/core/src/permission.ts`)
and the command execution pipeline (`packages/core/src/command/command.ts`).

The TypeScript source is shallowly embedded:

* `Computed<boolean>` values are either boolean literals (`Computed.val`)
  or opaque closures identified by a numeric id (`Computed.fn`); JavaScript
  reference equality on conditions becomes decidable equality on these ids.
* A session (`Partial<Session>`) is embedded as the record of everything the
  embedded code reads from it: how `session.resolve` evaluates closure
  conditions, the optional attached user, and the optional bot capability
  oracle.  `session.resolve` on a literal returns the literal, on a closure
  invokes it, exactly as in `@satorijs/core`.
* JavaScript `Map` / plain-object dictionaries are association lists with
  `Map.set` / property-assignment semantics (replace in place, append new
  keys at the end, preserving insertion order).
* Async provider callbacks that may throw are total functions into
  `Except Unit Bool` (`.error` models a thrown exception).
* The unbounded `while ((node = queue.shift()))` loop of `DAG.subgraph` is
  run on explicit fuel; `fuelBound` is a proven-sufficient budget (see the
  stability lemmas), so the fueled function agrees with the source loop.
-/

/-! ### Conditions and sessions -/

/-- A `Computed<boolean>` condition: either a literal boolean or an opaque
closure identified by a numeric id (JS `===` on closures is id equality). -/
inductive Computed where
  | val : Bool → Computed
  | fn : Nat → Computed
deriving DecidableEq

/-- The slice of a user record read by the built-in providers. -/
structure User where
  authority : Int
deriving DecidableEq

/-- The slice of a `Partial<Session>` read by the embedded code. -/
structure Session where
  /-- How `session.resolve` evaluates a closure condition with this session. -/
  resolveFn : Nat → Bool
  /-- `session.user`, if an authenticated actor is attached. -/
  user : Option User
  /-- `session.bot?.supports(cap, session)` as a total oracle; `none` models
  an absent bot (the optional chain yields `undefined`, which is falsy).
  An `.error` result models `supports` throwing. -/
  botSupports : Option (String → Except Unit Bool)

/-- `session.resolve(value)`: a function value is invoked with the session,
any other value is returned as-is. -/
def Session.resolve (s : Session) : Computed → Bool
  | Computed.val b => b
  | Computed.fn id => s.resolveFn id

/-! ### Association-list embedding of `Map` and of plain-object dicts -/

/-- Lookup in an insertion-ordered association list (`Map.get`). -/
def alistGet {α : Type} (l : List (String × α)) (k : String) : Option α :=
  match l with
  | [] => none
  | p :: rest => if p.1 = k then some p.2 else alistGet rest k

/-- `Map.set`: replace the value of an existing key in place, otherwise
append the new entry at the end (insertion order preserved). -/
def alistSet {α : Type} (l : List (String × α)) (k : String) (v : α) :
    List (String × α) :=
  match l with
  | [] => [(k, v)]
  | p :: rest => if p.1 = k then (k, v) :: rest else p :: alistSet rest k v

/-! ### The permission graph store (`class DAG`) -/

/-- `DAG.store: Map<string, Map<string, Computed<boolean>[]>>`. -/
structure DAG where
  store : List (String × List (String × List Computed))
deriving DecidableEq

/-- `DAG.link(source, target, condition)`: create the source map and the
target entry if absent, then push the condition onto the edge's list. -/
def DAG.link (g : DAG) (source target : String) (condition : Computed) : DAG :=
  let map := (alistGet g.store source).getD []
  let conds := (alistGet map target).getD []
  ⟨alistSet g.store source (alistSet map target (conds ++ [condition]))⟩

/-- `DAG.unlink(source, target, condition)`: if the edge's condition list
exists, remove one instance of the condition from it (cosmokit `remove`
splices out the first `===`-equal element; a missing condition is a no-op).
The edge entry itself is kept even when its list becomes empty. -/
def DAG.unlink (g : DAG) (source target : String) (condition : Computed) : DAG :=
  match alistGet g.store source with
  | none => g
  | some map =>
    match alistGet map target with
    | none => g
    | some conds =>
      ⟨alistSet g.store source (alistSet map target (conds.erase condition))⟩

/-- The condition list of the `(source, target)` edge, when present. -/
def DAG.edge (g : DAG) (source target : String) : Option (List Computed) :=
  match alistGet g.store source with
  | none => none
  | some map => alistGet map target

/-- The guard used by `DAG.subgraph` on an edge's condition list: the edge is
skipped iff `conditions.every(value => !session.resolve(value))`, so it is
taken iff that `every` is false.  An empty list is never taken. -/
def edgeActive (sess : Session) (conds : List Computed) : Bool :=
  !(conds.all fun value => !sess.resolve value)

/-- The targets enqueued when `node` is dequeued by `DAG.subgraph`: each key
of the node's adjacency map whose edge passes `edgeActive`, in map order. -/
def DAG.targets (g : DAG) (sess : Session) (node : String) : List String :=
  match alistGet g.store node with
  | none => []
  | some map => (map.filter fun kv => edgeActive sess kv.2).map (fun kv => kv.1)

/-- Every edge-target string occurring anywhere in the graph. -/
def DAG.allTargets (g : DAG) : List String :=
  g.store.flatMap fun p => p.2.map (fun kv => kv.1)

/-- One fueled run of the `while ((node = queue.shift()))` loop of
`DAG.subgraph`.  Note the JavaScript truthiness test: the loop also stops
when the dequeued node is the empty string. -/
def subgraphAux (g : DAG) (sess : Session) :
    Nat → List String → List String → List String
  | 0, _, visited => visited
  | fuel + 1, queue, visited =>
    match queue with
    | [] => visited
    | node :: rest =>
      if node = "" then visited
      else if node ∈ visited then subgraphAux g sess fuel rest visited
      else subgraphAux g sess fuel (rest ++ g.targets sess node) (visited ++ [node])

/-- A fuel budget provably sufficient for the breadth-first traversal to run
to completion (see the stability lemmas below). -/
def fuelBound (g : DAG) (parents : List String) : Nat :=
  (parents.length + g.allTargets.length) * (g.allTargets.length + 1)
    + parents.length + 1

/-- `DAG.subgraph(parents, session)`: breadth-first traversal collecting the
visited set (insertion order), enqueuing each target of a dequeued node whose
edge has at least one condition resolving true. -/
def DAG.subgraph (g : DAG) (parents : List String) (sess : Session) : List String :=
  subgraphAux g sess (fuelBound g parents) parents []

/-- Termination measure for the traversal, relative to a node universe `U`
containing the queue and all edge targets: distinct not-yet-visited nodes
weighted by the maximal enqueue burst, plus the queue length. -/
def bfsMeasure (U : Finset String) (T : Nat) (queue visited : List String) : Nat :=
  (U \ visited.toFinset).card * (T + 1) + queue.length

/-- Reachability through edges the traversal may take: reflexive closure of
"`t` is an enqueued target of `b`" (an edge with at least one condition
resolving true under this session). -/
inductive DAG.Reaches (g : DAG) (sess : Session) : String → String → Prop
  | refl (a : String) : DAG.Reaches g sess a a
  | step {a b t : String} : DAG.Reaches g sess a b → t ∈ g.targets sess b →
      DAG.Reaches g sess a t

/-- Well-formedness of the store: outer keys and each inner map's keys are
duplicate-free.  Constructions through `link`/`unlink` preserve this. -/
def DAG.WF (g : DAG) : Prop :=
  (g.store.map (fun p => p.1)).Nodup ∧
    ∀ p ∈ g.store, (p.2.map (fun kv => kv.1)).Nodup

/-! ### The permission resolver (`class Permissions`) -/

/-- A provider callback `(name, session) => Awaitable<boolean>`; a thrown
exception is `.error ()`. -/
def Provider : Type := String → Session → Except Unit Bool

/-- `key.endsWith('*')`, computed on the underlying character list. -/
def strWildcard (key : String) : Bool := key.data.getLast? == some '*'

/-- `key.slice(0, -1)`: all characters but the last. -/
def strDropLast (key : String) : String := String.mk key.data.dropLast

/-- `name.startsWith(pre)`, computed on the underlying character lists. -/
def strStartsWith (name pre : String) : Bool := pre.data.isPrefixOf name.data

/-- `s.slice(n)` for an ASCII prefix of known length. -/
def strDrop (s : String) (n : Nat) : String := String.mk (s.data.drop n)

/-- Value of a decimal digit character, if it is one. -/
def charDigit (c : Char) : Option Nat :=
  if '0' ≤ c ∧ c ≤ '9' then some (c.toNat - '0'.toNat) else none

/-- Accumulate a decimal numeral. -/
def digitsCore : List Char → Nat → Option Nat
  | [], acc => some acc
  | c :: rest, acc =>
    match charDigit c with
    | none => none
    | some d => digitsCore rest (acc * 10 + d)

/-- JavaScript numeric coercion `+s`, restricted to the integer numerals the
authority provider actually receives: the empty string coerces to `0`, an
optionally negated run of digits to its value, and anything else to `NaN`,
modelled as `none` (which makes every `>=` comparison false). -/
def jsToNumber (s : String) : Option Int :=
  match s.data with
  | [] => some 0
  | '-' :: rest =>
    if rest.isEmpty then none
    else (digitsCore rest 0).map fun n => -(n : Int)
  | l => (digitsCore l 0).map fun n => (n : Int)

/-- The built-in `authority.*` provider:
`!user || user.authority >= +name.slice(10)`. -/
def authorityProvider : Provider := fun name sess =>
  Except.ok (match sess.user with
    | none => true
    | some u =>
      match jsToNumber (strDrop name 10) with
      | some v => decide (u.authority ≥ v)
      | none => false)

/-- The built-in `bot.*` provider: `session.bot?.supports(name.slice(4))`;
an absent bot yields `undefined`, which the caller treats as `false`. -/
def botProvider : Provider := fun name sess =>
  match sess.botSupports with
  | none => Except.ok false
  | some f => f (strDrop name 4)

/-- The permission resolver's state: the two graphs and the provider dict. -/
structure Permissions where
  inherits : DAG
  depends : DAG
  providers : List (String × Provider)

/-- A fresh resolver, seeded with the two built-in providers exactly as the
constructor does. -/
def Permissions.init : Permissions :=
  ⟨⟨[]⟩, ⟨[]⟩, [("authority.*", authorityProvider), ("bot.*", botProvider)]⟩

/-- `provide(name, callback)` registers or replaces the predicate. -/
def Permissions.provide (p : Permissions) (name : String) (callback : Provider) :
    Permissions :=
  { p with providers := alistSet p.providers name callback }

/-- The provider callbacks whose pattern matches `name`:
`name === key || key.endsWith('*') && name.startsWith(key.slice(0, -1))`,
in dict insertion order. -/
def matchProviders (providers : List (String × Provider)) (name : String) :
    List Provider :=
  (providers.filter fun kv =>
    name == kv.1 || (strWildcard kv.1 && strStartsWith name (strDropLast kv.1))).map
    (fun kv => kv.2)

/-- The sequential `for (const callback of callbacks)` loop of `check`:
stop with the thrown exception, or with `false` at the first failing
predicate; `true` only once every callback has returned true. -/
def runCallbacks (name : String) (sess : Session) :
    List Provider → Except Unit Bool
  | [] => Except.ok true
  | cb :: rest =>
    match cb name sess with
    | Except.error e => Except.error e
    | Except.ok false => Except.ok false
    | Except.ok true => runCallbacks name sess rest

/-- `check(name, session)`: no matching provider means `false`; a thrown
exception is caught (and logged) yielding `false`; otherwise the conjunction
of the matching predicates evaluated sequentially. -/
def Permissions.check (p : Permissions) (name : String) (sess : Session) : Bool :=
  let callbacks := matchProviders p.providers name
  if callbacks.isEmpty then false
  else
    match runCallbacks name sess callbacks with
    | Except.error _ => false
    | Except.ok b => b

/-- `inherit(child, parent, condition = true)` links `parent → child` in the
inherit graph (the topology-changed event and the disposer are not part of
the state). -/
def Permissions.inherit (p : Permissions) (child parent : String)
    (condition : Computed) : Permissions :=
  { p with inherits := p.inherits.link parent child condition }

/-- `depend(dependent, dependency, condition = true)` links
`dependent → dependency` in the depends graph. -/
def Permissions.depend (p : Permissions) (dependent dependency : String)
    (condition : Computed) : Permissions :=
  { p with depends := p.depends.link dependent dependency condition }

/-- `authority(value, name)`: link `name` under `authority.<value>`; in the
typed embedding `value` is always a number, so the silent early-return for
non-numbers is vacuous. -/
def Permissions.authority (p : Permissions) (value : Int) (name : String) :
    Permissions :=
  p.inherit (String.append "authority." (toString value)) name (Computed.val true)

/-- `test(x, y, session)`: every name in the depends-closure of `y` must be
satisfied, either because some inherit-ancestor of it is held in `x` or
because some inherit-ancestor passes `check`.  The per-call promise cache of
the source only memoizes the pure `check` results and `Promise.all` evaluates
every ancestor, so the result is this conjunction of disjunctions. -/
def Permissions.test (p : Permissions) (x : List String) (y : List String)
    (sess : Session) : Bool :=
  (p.depends.subgraph y sess).all fun name =>
    let parents := p.inherits.subgraph [name] sess
    parents.any (fun parent => x.contains parent)
      || (parents.map fun parent => p.check parent sess).any id

/-! ### The command execution pipeline (`Command.execute`)

The per-invocation continuation machinery of `execute` is embedded as a
small-step interpreter.  Client callbacks (actions, the caller-supplied
fallback, and callbacks spliced in via `next(cb)`) are deep-embedded as
`Body` programs, since their only interactions with the pipeline are:
returning a nullable or non-nullable fragment, throwing, and invoking
`argv.next`, optionally passing a callback.  `Next.MAX_DEPTH`, `Next.compose`
and `SessionError` live in `middleware.ts`, which is not part of the excerpt;
they are modelled from the spec: the maximum queue length is a configured
parameter `maxD`, `compose(callback, next)` applies a function callback to
the continuation, and a session error carries a localization path and
parameters. -/

/-- Exceptions observable by `execute`'s `catch` block. -/
inductive Err where
  /-- Modelled from the spec: a `SessionError` carrying a localization path
  and parameters (`middleware.ts` is outside the excerpt). -/
  | session (path : String) (param : List String)
  /-- Any other runtime exception, identified by an id. -/
  | runtime (id : Nat)
  /-- The `middleware stack exceeded` error thrown by `argv.next`; it is a
  plain `Error`, so the `catch` block treats it like a runtime exception. -/
  | depth (max : Nat)
deriving DecidableEq

/-- A deep-embedded client callback body: return a value (`none` is the
nullable result), throw, call `argv.next` discarding the result and continue,
or tail-return the result of `argv.next`.  The optional argument of the two
`next` forms is the callback spliced into the queue. -/
inductive Body where
  | ret (v : Option String)
  | thrw (e : Err)
  | seqNext (cb : Option Body) (rest : Body)
  | tailNext (cb : Option Body)

/-- An element of the continuation queue: the wrapper of a static action
(which ignores its `next` argument and invokes the action), the terminal
caller-supplied fallback, or a continuation appended by `next(cb)` (which
`Next.compose` turns into an application of the callback to `next`). -/
inductive QElem where
  | action (i : Nat)
  | fallback
  | appended (cb : Body)

/-- Trace events: which checker/continuation was invoked, in order.  The
trace instruments the embedding for the "never executes" claims; it has no
effect on results. -/
inductive Ev where
  | checker (id : Nat)
  | action (i : Nat)
  | fallback
  | appended
deriving DecidableEq

/-- The mutable state captured by the `argv.next` closure: the continuation
queue, the monotone cursor, and the instrumentation trace. -/
structure RunSt where
  queue : List QElem
  index : Nat
  trace : List Ev

/-- What a dequeued queue element does: the body it runs and the trace event
recording its invocation. -/
def qBody (acts : List Body) (fb : Body) : QElem → Body × Ev
  | QElem.action j => (acts.getD j (Body.ret none), Ev.action j)
  | QElem.fallback => (fb, Ev.fallback)
  | QElem.appended b => (b, Ev.appended)

/-- The interpreter's two entry points: an invocation of `argv.next` with an
optional callback, or the execution of a callback body. -/
inductive Call where
  | next (cb : Option Body)
  | run (b : Body)

/-- Fueled interpreter for the continuation machinery of `execute`:
`Call.next cb` is `argv.next(cb)` — push the composed callback when one is
given and throw the depth error if the queue then exceeds `maxD`, otherwise
dequeue `queue[index++]` (an exhausted queue yields the nullable result) and
run it; `Call.run` executes a body.  `none` means the fuel ran out. -/
def interp (acts : List Body) (fb : Body) (maxD : Nat) :
    Nat → Call → RunSt → Option (Except Err (Option String) × RunSt)
  | 0, _, _ => none
  | fuel + 1, Call.next cb, st =>
    let st1 : RunSt :=
      match cb with
      | some b => { st with queue := st.queue ++ [QElem.appended b] }
      | none => st
    if cb.isSome && decide (st1.queue.length > maxD) then
      some (Except.error (Err.depth maxD), st1)
    else
      let st2 : RunSt := { st1 with index := st1.index + 1 }
      match st1.queue[st1.index]? with
      | none => some (Except.ok none, st2)
      | some q =>
        let be := qBody acts fb q
        interp acts fb maxD fuel (Call.run be.1)
          { st2 with trace := st2.trace ++ [be.2] }
  | fuel + 1, Call.run b, st =>
    match b with
    | Body.ret v => some (Except.ok v, st)
    | Body.thrw e => some (Except.error e, st)
    | Body.tailNext cb => interp acts fb maxD fuel (Call.next cb) st
    | Body.seqNext cb rest =>
      match interp acts fb maxD fuel (Call.next cb) st with
      | none => none
      | some (Except.error e, st') => some (Except.error e, st')
      | some (Except.ok _, st') => interp acts fb maxD fuel (Call.run rest) st'

/-- A pre-execution checker, identified for the trace; its returned value is
the scenario datum (`none` is the nullable result that lets the pipeline
continue).  The framework-default checker created in the constructor returns
the result of the `command/before-execute` serial hook. -/
structure Checker where
  id : Nat
  result : Option String
deriving DecidableEq

/-- The `handleError` config entry: a boolean policy or a custom handler
(whose own result may be nullable, non-nullable, or a thrown exception). -/
inductive HandleError where
  | flag (b : Bool)
  | handler (h : Err → Except Err (Option String))

/-- The slice of a `Command` that `execute` reads: its checker list, action
list, and error-handling policy. -/
structure Command where
  name : String
  checkers : List Checker
  actions : List Body
  handleError : HandleError

/-- A freshly constructed command: `_checkers` starts with the framework
default checker, `_actions` is empty, and `config.handleError` defaults to
`true`. -/
def Command.make (name : String) (defaultCheck : Checker) : Command :=
  ⟨name, [defaultCheck], [], HandleError.flag true⟩

/-- `before(callback, append = false)`: append pushes the checker at the
back; the default mode unshifts it to the front. -/
def Command.before (cmd : Command) (c : Checker) (append : Bool) : Command :=
  if append then { cmd with checkers := cmd.checkers ++ [c] }
  else { cmd with checkers := c :: cmd.checkers }

/-- `check(callback, append = false)` delegates to `before`. -/
def Command.check (cmd : Command) (c : Checker) (append : Bool) : Command :=
  cmd.before c append

/-- `action(callback, prepend = false)`: default mode pushes at the back. -/
def Command.action (cmd : Command) (b : Body) (prepend : Bool) : Command :=
  if prepend then { cmd with actions := b :: cmd.actions }
  else { cmd with actions := cmd.actions ++ [b] }

/-- The slice of the argument context `execute` reads on entry. -/
structure Argv where
  error : Option String

/-- The external collaborators `execute` consults: `session.text` for
localized rendering. -/
structure Env where
  text : String → List String → String

/-- The `for (const validator of this._checkers)` loop: invoke each checker
in list order, returning the first non-nullable result; the trace records
every invoked checker. -/
def runCheckers : List Checker → List Ev → Option String × List Ev
  | [], tr => (none, tr)
  | c :: rest, tr =>
    let tr1 := tr ++ [Ev.checker c.id]
    match c.result with
    | some r => (some r, tr1)
    | none => runCheckers rest tr1

/-- The tail of `execute`'s `catch` block, reached when the error is not
re-thrown: a `SessionError` renders its localization path; otherwise the
error is logged and emitted and the `handleError` policy decides — a custom
handler's non-nullable result is returned (a nullable one falls through to
the final `return ''`, a throw propagates), policy `true` renders the generic
internal-error text, and policy `false` falls through to `return ''`. -/
def handleCaught (cmd : Command) (env : Env) (e : Err) : Except Err String :=
  match e with
  | Err.session path param => Except.ok (env.text path param)
  | _ =>
    match cmd.handleError with
    | HandleError.handler h =>
      match h e with
      | Except.error e2 => Except.error e2
      | Except.ok (some r) => Except.ok r
      | Except.ok none => Except.ok ""
    | HandleError.flag true => Except.ok (env.text "internal.error-encountered" [])
    | HandleError.flag false => Except.ok ""

/-- Truthiness of the `argv.error` slot (`if (error) return error`). -/
def jsTruthy : Option String → Bool
  | none => false
  | some s => s != ""

/-- The continuation queue as built by `execute` before any `next(cb)` call:
one wrapper per static action, then the caller-supplied fallback. -/
def staticQueue (acts : List Body) : List QElem :=
  (List.range acts.length).map QElem.action ++ [QElem.fallback]

/-- `Command.execute(argv, fallback)`: return a pre-populated truthy `error`
as-is; run the checkers, short-circuiting on the first non-nullable result;
return `''` when there are no actions; otherwise build the continuation
queue (one wrapper per action, then the fallback), capture its length, and
invoke `argv.next()`.  A non-nullable result is returned, a nullable one
falls through to `''`, and a thrown error is re-thrown when the cursor
equals the captured length and otherwise handled by `handleCaught`.  The
result is paired with the instrumentation trace; `none` means the
interpreter fuel ran out. -/
def Command.execute (cmd : Command) (env : Env) (argv : Argv) (fb : Body)
    (maxD : Nat) (fuel : Nat) : Option (Except Err String × List Ev) :=
  if jsTruthy argv.error then some (Except.ok (argv.error.getD ""), [])
  else
    match runCheckers cmd.checkers [] with
    | (some r, tr) => some (Except.ok r, tr)
    | (none, tr) =>
      if cmd.actions.length = 0 then some (Except.ok "", tr)
      else
        let queue : List QElem := staticQueue cmd.actions
        let len := queue.length
        match interp cmd.actions fb maxD fuel (Call.next none) ⟨queue, 0, tr⟩ with
        | none => none
        | some (r, st) =>
          match r with
          | Except.ok (some v) => some (Except.ok v, st.trace)
          | Except.ok none => some (Except.ok "", st.trace)
          | Except.error e =>
            if st.index = len then some (Except.error e, st.trace)
            else some (handleCaught cmd env e, st.trace)

/-! ### The command registry (`_registerAlias`, the constructor, `alias`) -/

/-- The global registry state: the alias-to-command map (`$commander`'s
name map, command identity as a numeric id) and the flat command list. -/
structure Registry where
  map : List (String × Nat)
  commandList : List Nat
deriving DecidableEq

/-- The full effect of one `_registerAlias` call: the optional thrown error,
the registry afterwards, and the command's own `_aliases` afterwards (the
source mutates `_aliases` before the duplicate check, so a failed call still
leaves the name in it). -/
structure AliasOutcome where
  error : Option String
  reg : Registry
  aliases : List String
deriving DecidableEq

/-- Lowercasing of an alias name, on the underlying character list. -/
def strToLower (s : String) : String := String.mk (s.data.map Char.toLower)

/-- `_registerAlias(name, prepend = false)`: lowercase the name, resolve a
leading separator against the parent's name (reading `this.parent.name` with
no parent throws a `TypeError`), reorder or append in `_aliases`, and only
for a genuinely new alias consult the global map — absent: register it;
mapped to this command: done; mapped to a different command: throw, leaving
the registry untouched. -/
def registerAlias (reg : Registry) (selfId : Nat) (aliases : List String)
    (parentName : Option String) (name0 : String) (prepend : Bool) :
    AliasOutcome :=
  let n1 := strToLower name0
  match (if strStartsWith n1 "." then parentName.map fun p => p ++ n1
         else some n1) with
  | none => ⟨some "TypeError", reg, aliases⟩
  | some name =>
    if name ∈ aliases then
      let aliases' := if prepend then name :: aliases.erase name else aliases
      ⟨none, reg, aliases'⟩
    else
      let aliases' := if prepend then name :: aliases else aliases ++ [name]
      match alistGet reg.map name with
      | none =>
        ⟨none, { reg with map := alistSet reg.map name selfId }, aliases'⟩
      | some prev =>
        if prev = selfId then ⟨none, reg, aliases'⟩
        else ⟨some "duplicate command names", reg, aliases'⟩

/-- The registry-visible part of the `Command` constructor: register the
primary name as an alias of the new command (empty `_aliases`, no parent for
a top-level command), and only if that does not throw, push the command onto
the flat `_commandList`. -/
def constructCommand (reg : Registry) (selfId : Nat) (name : String) :
    AliasOutcome :=
  let o := registerAlias reg selfId [] none name false
  match o.error with
  | some _ => o
  | none =>
    { o with reg := { o.reg with commandList := o.reg.commandList ++ [selfId] } }

/-! ### Helper lemmas: checker loop -/

/-- When every checker returns a nullable result, the loop runs all of them
in list order and yields the nullable outcome. -/
theorem runCheckers_none (cs : List Checker) (tr : List Ev)
    (h : ∀ c ∈ cs, c.result = none) :
    runCheckers cs tr = (none, tr ++ cs.map fun c => Ev.checker c.id) := by
  induction cs generalizing tr with
  | nil => simp [runCheckers]
  | cons c rest ih =>
    have hc : c.result = none := h c (List.mem_cons_self c rest)
    simp only [runCheckers, hc]
    rw [ih (tr ++ [Ev.checker c.id]) fun d hd => h d (List.mem_cons_of_mem c hd)]
    simp

/-- The loop stops at the first checker with a non-nullable result, having
invoked exactly the checkers up to and including it. -/
theorem runCheckers_first (cs : List Checker) (tr : List Ev) (i : Nat) (v : String)
    (hi : i < cs.length)
    (hfst : ∀ j, j < i → (cs.getD j ⟨0, none⟩).result = none)
    (hv : (cs.getD i ⟨0, none⟩).result = some v) :
    runCheckers cs tr
      = (some v, tr ++ (cs.take (i + 1)).map fun c => Ev.checker c.id) := by
  induction cs generalizing tr i with
  | nil => simp at hi
  | cons c rest ih =>
    cases i with
    | zero =>
      simp only [List.getD_cons_zero] at hv
      simp [runCheckers, hv]
    | succ i' =>
      have hc : c.result = none := by
        have := hfst 0 (Nat.succ_pos i')
        simpa using this
      simp only [runCheckers, hc]
      rw [ih (tr ++ [Ev.checker c.id]) i' (by simpa using hi)
        (fun j hj => by simpa using hfst (j + 1) (Nat.succ_lt_succ hj))
        (by simpa using hv)]
      simp [List.take_succ_cons]

/-! ### C1: the short-circuit example of the spec -/

/-- C1: the claim is false on the code.  For a fresh resolver with the two
built-in providers, after `inherit("authority.3", "cmd.foo")` and
`depend("cmd.bar", "cmd.foo")`, `test(["authority.3"], ["cmd.bar"])` is
`false`, not `true` as claimed: the depends-closure of `cmd.bar` contains
`cmd.bar` itself, the held set does not intersect its inherit-ancestors
(just `cmd.bar`), and no provider matches `cmd.bar`. -/
theorem c1_counterexample :
    ((Permissions.init.inherit "authority.3" "cmd.foo" (Computed.val true)).depend
        "cmd.bar" "cmd.foo" (Computed.val true)).test
      ["authority.3"] ["cmd.bar"] ⟨fun _ => true, none, none⟩ = false := rfl

/-- C1 (amended): with the dependent itself also held,
`test({"authority.3", "cmd.bar"}, ["cmd.bar"])` is `true`, and after
removing the inherit edge (the disposer's `unlink`) it is `false`, for every
session. -/
theorem c1_amended (sess : Session) :
    ((Permissions.init.inherit "authority.3" "cmd.foo" (Computed.val true)).depend
        "cmd.bar" "cmd.foo" (Computed.val true)).test
      ["authority.3", "cmd.bar"] ["cmd.bar"] sess = true
    ∧ (let p := (Permissions.init.inherit "authority.3" "cmd.foo"
          (Computed.val true)).depend "cmd.bar" "cmd.foo" (Computed.val true)
       { p with inherits :=
          p.inherits.unlink "cmd.foo" "authority.3" (Computed.val true) }.test
        ["authority.3", "cmd.bar"] ["cmd.bar"] sess = false) :=
  ⟨rfl, rfl⟩

/-- C1 (amended) at a concrete session. -/
theorem c1_witness :
    ((Permissions.init.inherit "authority.3" "cmd.foo" (Computed.val true)).depend
        "cmd.bar" "cmd.foo" (Computed.val true)).test
      ["authority.3", "cmd.bar"] ["cmd.bar"] ⟨fun _ => false, none, none⟩ = true :=
  (c1_amended ⟨fun _ => false, none, none⟩).1

/-! ### C6: checker ordering and `before`'s default mode -/

/-- C6: the claim is false on the code.  A checker added through
`before`/`check` in the default (non-append) mode is unshifted to the front
of `_checkers`, so it runs before the framework-default checker installed at
construction: with the default checker as id `0` and the caller's checker as
id `1`, the trace is `[checker 1, checker 0]`. -/
theorem c6_counterexample :
    ((Command.make "foo" ⟨0, none⟩).before ⟨1, none⟩ false).execute
        ⟨fun p _ => p⟩ ⟨none⟩ (Body.ret none) 5 10
      = some (Except.ok "", [Ev.checker 1, Ev.checker 0]) := rfl

/-- C6 (amended): checkers execute strictly in checker-list order; `before`
(hence `check`) with the default non-append mode prepends the new checker,
so a caller-added checker runs before every previously registered one,
including the framework-default checker `[d]` installed at construction;
only `append = true` places it after. -/
theorem c6_amended (cmd : Command) (env : Env) (fb : Body) (maxD fuel : Nat)
    (c d : Checker) (name : String)
    (hch : ∀ ch ∈ cmd.checkers, ch.result = none) :
    (cmd.before c false).checkers = c :: cmd.checkers
    ∧ (cmd.before c true).checkers = cmd.checkers ++ [c]
    ∧ (Command.make name d).checkers = [d]
    ∧ (cmd.actions = [] → cmd.execute env ⟨none⟩ fb maxD fuel
        = some (Except.ok "", cmd.checkers.map fun ch => Ev.checker ch.id)) := by
  refine ⟨by simp [Command.before], by simp [Command.before], rfl, fun ha => ?_⟩
  simp [Command.execute, jsTruthy, runCheckers_none cmd.checkers [] hch, ha]

/-- C6 (amended) at a concrete command: a caller-added checker (id 1, added
in default mode) precedes the construction-time default checker (id 0). -/
theorem c6_witness :
    ((Command.make "foo" ⟨0, none⟩).before ⟨1, none⟩ false).checkers
      = [⟨1, none⟩, ⟨0, none⟩] := by
  have h := c6_amended (Command.make "foo" ⟨0, none⟩) ⟨fun p _ => p⟩
    (Body.ret none) 5 10 ⟨1, none⟩ ⟨0, none⟩ "foo" (by decide)
  rw [h.1, h.2.2.1]

/-! ### C7: checker short-circuit -/

/-- C7: if checker `i` is the first whose result is non-nullable, `execute`
returns that result as the final output, the trace contains exactly the
checkers up to and including `i`, and in particular no later checker, no
action, no fallback and no appended continuation is ever invoked (the trace
contains no such events), for every fuel, fallback and depth limit. -/
theorem c7_checker_short_circuit (cmd : Command) (env : Env) (fb : Body)
    (maxD fuel i : Nat) (v : String)
    (hi : i < cmd.checkers.length)
    (hfst : ∀ j, j < i → (cmd.checkers.getD j ⟨0, none⟩).result = none)
    (hv : (cmd.checkers.getD i ⟨0, none⟩).result = some v) :
    cmd.execute env ⟨none⟩ fb maxD fuel
      = some (Except.ok v,
          (cmd.checkers.take (i + 1)).map fun c => Ev.checker c.id)
    ∧ (∀ j, Ev.action j ∉
        (cmd.checkers.take (i + 1)).map fun c => Ev.checker c.id)
    ∧ Ev.fallback ∉ ((cmd.checkers.take (i + 1)).map fun c => Ev.checker c.id) := by
  refine ⟨?_, ?_, ?_⟩
  · simp [Command.execute, jsTruthy,
      runCheckers_first cmd.checkers [] i v hi hfst hv]
  · intro j hj
    rcases List.mem_map.mp hj with ⟨c, _, hc⟩
    exact Ev.noConfusion hc
  · intro hj
    rcases List.mem_map.mp hj with ⟨c, _, hc⟩
    exact Ev.noConfusion hc

/-- C7 at a concrete command: the first checker returns a warning text and
short-circuits the pipeline. -/
theorem c7_witness :
    (Command.mk "foo" [⟨0, some "warn"⟩, ⟨1, none⟩]
        [Body.thrw (Err.runtime 3)] (HandleError.flag true)).execute
        ⟨fun p _ => p⟩ ⟨none⟩ (Body.ret none) 5 10
      = some (Except.ok "warn", [Ev.checker 0]) :=
  (c7_checker_short_circuit
    (Command.mk "foo" [⟨0, some "warn"⟩, ⟨1, none⟩]
      [Body.thrw (Err.runtime 3)] (HandleError.flag true))
    ⟨fun p _ => p⟩ (Body.ret none) 5 10 0 "warn" (by decide)
    (fun j hj => absurd hj (Nat.not_lt_zero j)) rfl).1

/-! ### C10: the zero-action degenerate case -/

/-- C10: a command with no actions whose checkers all return nullable values
resolves to the empty result; the trace shows the continuation queue is
never entered — no fallback, action, or appended event occurs —
independently of the fuel, so the caller-supplied fallback is never invoked. -/
theorem c10_zero_actions (cmd : Command) (env : Env) (fb : Body)
    (maxD fuel : Nat)
    (hacts : cmd.actions = [])
    (hch : ∀ c ∈ cmd.checkers, c.result = none) :
    cmd.execute env ⟨none⟩ fb maxD fuel
      = some (Except.ok "", cmd.checkers.map fun c => Ev.checker c.id)
    ∧ Ev.fallback ∉ (cmd.checkers.map fun c => Ev.checker c.id)
    ∧ (∀ j, Ev.action j ∉ (cmd.checkers.map fun c => Ev.checker c.id)) := by
  refine ⟨?_, ?_, ?_⟩
  · simp [Command.execute, jsTruthy, runCheckers_none cmd.checkers [] hch, hacts]
  · intro hj
    rcases List.mem_map.mp hj with ⟨c, _, hc⟩
    exact Ev.noConfusion hc
  · intro j hj
    rcases List.mem_map.mp hj with ⟨c, _, hc⟩
    exact Ev.noConfusion hc

/-- C10 at a concrete command with one passing checker and no actions. -/
theorem c10_witness :
    (Command.make "foo" ⟨0, none⟩).execute ⟨fun p _ => p⟩ ⟨none⟩
        (Body.thrw (Err.runtime 3)) 5 10
      = some (Except.ok "", [Ev.checker 0]) :=
  (c10_zero_actions (Command.make "foo" ⟨0, none⟩) ⟨fun p _ => p⟩
    (Body.thrw (Err.runtime 3)) 5 10 rfl (by decide)).1

/-! ### C8: `check` semantics -/

/-- The sequential provider loop returns true exactly when every callback in
the list evaluates to true (no throw, no false). -/
theorem runCallbacks_ok_true_iff (name : String) (sess : Session)
    (l : List Provider) :
    runCallbacks name sess l = Except.ok true
      ↔ ∀ cb ∈ l, cb name sess = Except.ok true := by
  induction l with
  | nil => simp [runCallbacks]
  | cons cb rest ih =>
    simp only [runCallbacks, List.mem_cons, forall_eq_or_imp]
    cases h : cb name sess with
    | error e => simp [h]
    | ok b =>
      cases b with
      | false => simp [h]
      | true => simp [h, ih]

/-- C8: `check` returns `false` when no registered provider pattern matches
the name; it returns `false` whenever any matching predicate throws, so no
exception escapes to the caller; it returns `true` exactly when some
provider matches and every matching predicate returns true; and the
sequential loop stops at the first predicate returning false — every
callback after it is irrelevant to the outcome. -/
theorem c8_check_semantics (p : Permissions) (name : String) (sess : Session) :
    (matchProviders p.providers name = [] → p.check name sess = false)
    ∧ ((∃ cb ∈ matchProviders p.providers name,
          cb name sess = Except.error ()) → p.check name sess = false)
    ∧ (p.check name sess = true ↔
        matchProviders p.providers name ≠ [] ∧
          ∀ cb ∈ matchProviders p.providers name, cb name sess = Except.ok true)
    ∧ (∀ l1 cb l2, cb name sess = Except.ok false →
        runCallbacks name sess (l1 ++ cb :: l2)
          = runCallbacks name sess (l1 ++ [cb])) := by
  have hiff : p.check name sess = true ↔
      matchProviders p.providers name ≠ [] ∧
        ∀ cb ∈ matchProviders p.providers name, cb name sess = Except.ok true := by
    unfold Permissions.check
    constructor
    · intro h
      by_cases he : (matchProviders p.providers name).isEmpty
      · rw [if_pos he] at h; exact Bool.noConfusion h
      · rw [if_neg he] at h
        refine ⟨by simpa [List.isEmpty_iff] using he, ?_⟩
        apply (runCallbacks_ok_true_iff name sess _).mp
        cases hrun : runCallbacks name sess (matchProviders p.providers name) with
        | error e => rw [hrun] at h; exact Bool.noConfusion h
        | ok b =>
          rw [hrun] at h
          cases b with
          | false => exact Bool.noConfusion h
          | true => rfl
    · rintro ⟨hne, hall⟩
      have he : ¬ (matchProviders p.providers name).isEmpty = true := by
        simpa [List.isEmpty_iff] using hne
      rw [if_neg he, (runCallbacks_ok_true_iff name sess _).mpr hall]
  refine ⟨fun h => ?_, fun h => ?_, hiff, fun l1 cb l2 hcb => ?_⟩
  · simp [Permissions.check, h]
  · rcases h with ⟨cb, hmem, hcb⟩
    cases hc : p.check name sess with
    | false => rfl
    | true =>
      have := (hiff.mp hc).2 cb hmem
      rw [this] at hcb
      exact Except.noConfusion hcb
  · induction l1 with
    | nil => simp [runCallbacks, hcb]
    | cons hd tl ih =>
      simp only [List.cons_append, runCallbacks]
      cases hd name sess with
      | error e => rfl
      | ok b => cases b with
        | false => rfl
        | true => exact ih

/-- C8 exercised concretely: a name matching no provider pattern of a fresh
resolver is denied, and a false-returning predicate makes every callback
after it irrelevant. -/
theorem c8_witness :
    Permissions.init.check "cmd.zzz" ⟨fun _ => true, none, none⟩ = false
    ∧ runCallbacks "cmd.zzz" ⟨fun _ => true, none, none⟩
        ((fun _ _ => Except.ok false) :: [fun _ _ => Except.error ()])
      = runCallbacks "cmd.zzz" ⟨fun _ => true, none, none⟩
        [fun _ _ => Except.ok false] :=
  ⟨(c8_check_semantics Permissions.init "cmd.zzz" ⟨fun _ => true, none, none⟩).1
      rfl,
   (c8_check_semantics Permissions.init "cmd.zzz"
      ⟨fun _ => true, none, none⟩).2.2.2 [] (fun _ _ => Except.ok false)
      [fun _ _ => Except.error ()] rfl⟩

/-! ### C9: alias uniqueness and registry preservation -/

/-- C9: registering an alias already mapped to a different command throws the
duplicate-name error and leaves the registry map untouched; through the
constructor path the flat command list is also untouched, because the
`_commandList.push` only happens after `_registerAlias` returns normally. -/
theorem c9_alias_uniqueness (reg : Registry) (selfId other : Nat)
    (aliases : List String) (parentName : Option String) (name : String)
    (prepend : Bool)
    (hdot : strStartsWith (strToLower name) "." = false)
    (hmem : strToLower name ∉ aliases)
    (hprev : alistGet reg.map (strToLower name) = some other)
    (hne : other ≠ selfId) :
    (registerAlias reg selfId aliases parentName name prepend).error
        = some "duplicate command names"
    ∧ (registerAlias reg selfId aliases parentName name prepend).reg = reg
    ∧ (constructCommand reg selfId name).error = some "duplicate command names"
    ∧ (constructCommand reg selfId name).reg = reg := by
  have hreg : ∀ (als : List String) (pn : Option String) (pr : Bool),
      strToLower name ∉ als →
      registerAlias reg selfId als pn name pr
        = ⟨some "duplicate command names", reg,
            if pr then strToLower name :: als else als ++ [strToLower name]⟩ := by
    intro als pn pr hm
    unfold registerAlias
    simp only [hdot, Bool.false_eq_true, if_false]
    rw [if_neg hm, hprev]
    simp [hne]
  have h1 := hreg aliases parentName prepend hmem
  have h0 := hreg [] none false (by simp)
  refine ⟨by rw [h1], by rw [h1], ?_, ?_⟩
  · unfold constructCommand
    rw [h0]
  · unfold constructCommand
    rw [h0]

theorem c9_witness :
    (constructCommand ⟨[("foo", 1)], [1]⟩ 2 "foo").error
        = some "duplicate command names"
    ∧ (constructCommand ⟨[("foo", 1)], [1]⟩ 2 "foo").reg = ⟨[("foo", 1)], [1]⟩ := by
  have h := c9_alias_uniqueness ⟨[("foo", 1)], [1]⟩ 2 1 [] none "foo" false
    rfl (by simp) rfl (by decide)
  exact ⟨h.2.2.1, h.2.2.2⟩

/-! ### Helper lemmas: association lists and graph well-formedness -/

theorem alistGet_set_self {α : Type} (l : List (String × α)) (k : String) (v : α) :
    alistGet (alistSet l k v) k = some v := by
  induction l with
  | nil => simp [alistGet, alistSet]
  | cons p rest ih =>
    by_cases h : p.1 = k
    · simp [alistGet, alistSet, h]
    · simp [alistGet, alistSet, h, ih]

theorem alistGet_set_ne {α : Type} (l : List (String × α)) (k k' : String) (v : α)
    (h : k ≠ k') : alistGet (alistSet l k v) k' = alistGet l k' := by
  induction l with
  | nil => simp [alistGet, alistSet, h]
  | cons p rest ih =>
    by_cases hp : p.1 = k
    · simp [alistGet, alistSet, hp, h]
    · by_cases hp' : p.1 = k'
      · simp [alistGet, alistSet, hp, hp', Ne.symm h]
      · simp [alistGet, alistSet, hp, hp', ih]

theorem alistGet_mem {α : Type} (l : List (String × α)) (k : String) (v : α)
    (h : alistGet l k = some v) : (k, v) ∈ l := by
  induction l with
  | nil => simp [alistGet] at h
  | cons p rest ih =>
    by_cases hp : p.1 = k
    · simp [alistGet, hp] at h
      subst hp h
      exact List.mem_cons_self p rest
    · simp [alistGet, hp] at h
      exact List.mem_cons_of_mem p (ih h)

theorem alistGet_of_mem {α : Type} (l : List (String × α)) (k : String) (v : α)
    (hnd : (l.map Prod.fst).Nodup) (h : (k, v) ∈ l) : alistGet l k = some v := by
  induction l with
  | nil => simp at h
  | cons p rest ih =>
    simp only [List.map_cons, List.nodup_cons] at hnd
    rcases List.mem_cons.mp h with heq | hmem
    · subst heq; simp [alistGet]
    · have hne : p.1 ≠ k := by
        intro hk
        exact hnd.1 (hk ▸ List.mem_map.mpr ⟨(k, v), hmem, rfl⟩)
      simp [alistGet, hne, ih hnd.2 hmem]

theorem alistSet_mem' {α : Type} (l : List (String × α)) (k : String) (v : α)
    (q : String × α) (h : q ∈ alistSet l k v) : q = (k, v) ∨ q ∈ l := by
  induction l with
  | nil => simpa [alistSet] using h
  | cons p rest ih =>
    by_cases hp : p.1 = k
    · simp only [alistSet, hp, if_true] at h
      rcases List.mem_cons.mp h with heq | hmem
      · exact Or.inl heq
      · exact Or.inr (List.mem_cons_of_mem p hmem)
    · simp only [alistSet, hp, if_false] at h
      rcases List.mem_cons.mp h with heq | hmem
      · exact Or.inr (heq ▸ List.mem_cons_self p rest)
      · rcases ih hmem with h' | h'
        · exact Or.inl h'
        · exact Or.inr (List.mem_cons_of_mem p h')

theorem alistSet_keys_nodup {α : Type} (l : List (String × α)) (k : String) (v : α)
    (hnd : (l.map Prod.fst).Nodup) : ((alistSet l k v).map Prod.fst).Nodup := by
  induction l with
  | nil => simp [alistSet]
  | cons p rest ih =>
    simp only [List.map_cons, List.nodup_cons] at hnd
    by_cases hp : p.1 = k
    · subst hp
      simpa [alistSet] using hnd
    · simp only [alistSet, hp, if_false, List.map_cons, List.nodup_cons]
      refine ⟨fun hmem => ?_, ih hnd.2⟩
      rcases List.mem_map.mp hmem with ⟨q, hq, hq1⟩
      rcases alistSet_mem' rest k v q hq with hq' | hq'
      · exact hp (by rw [hq'] at hq1; exact hq1.symm)
      · exact hnd.1 (hq1 ▸ List.mem_map.mpr ⟨q, hq', rfl⟩)


/-- `link` preserves store well-formedness. -/
theorem DAG.WF_link (g : DAG) (s t : String) (c : Computed) (hwf : g.WF) :
    (g.link s t c).WF := by
  obtain ⟨hout, hin⟩ := hwf
  constructor
  · exact alistSet_keys_nodup _ _ _ hout
  · intro p hp
    rcases alistSet_mem' _ _ _ p hp with heq | hmem
    · subst heq
      cases hm : alistGet g.store s with
      | none => simpa [hm] using alistSet_keys_nodup [] t _ (by simp)
      | some m =>
        have hmnd := hin (s, m) (alistGet_mem _ _ _ hm)
        simpa [hm] using alistSet_keys_nodup m t _ hmnd
    · exact hin p hmem

/-- `unlink` preserves store well-formedness. -/
theorem DAG.WF_unlink (g : DAG) (s t : String) (c : Computed) (hwf : g.WF) :
    (g.unlink s t c).WF := by
  obtain ⟨hout, hin⟩ := hwf
  cases hm : alistGet g.store s with
  | none =>
    have hrw : g.unlink s t c = g := by simp [DAG.unlink, hm]
    rw [hrw]; exact ⟨hout, hin⟩
  | some m =>
    cases hc : alistGet m t with
    | none =>
      have hrw : g.unlink s t c = g := by simp [DAG.unlink, hm, hc]
      rw [hrw]; exact ⟨hout, hin⟩
    | some conds =>
      have hrw : g.unlink s t c
          = ⟨alistSet g.store s (alistSet m t (conds.erase c))⟩ := by
        simp [DAG.unlink, hm, hc]
      rw [hrw]
      constructor
      · exact alistSet_keys_nodup _ _ _ hout
      · intro p hp
        rcases alistSet_mem' _ _ _ p hp with heq | hmem
        · subst heq
          have hmnd := hin (s, m) (alistGet_mem _ _ _ hm)
          simpa using alistSet_keys_nodup m t _ hmnd
        · exact hin p hmem

/-- An edge is active exactly when at least one of its conditions resolves
true under the session; in particular an empty list is never active. -/
theorem edgeActive_iff (sess : Session) (conds : List Computed) :
    edgeActive sess conds = true ↔ ∃ c ∈ conds, sess.resolve c = true := by
  simp [edgeActive, List.all_eq_true]

/-- Under well-formedness, a node is an enqueued target exactly when the
edge to it exists and is active. -/
theorem mem_targets_iff (g : DAG) (sess : Session) (s t : String) (hwf : g.WF) :
    t ∈ g.targets sess s
      ↔ ∃ conds, g.edge s t = some conds ∧ edgeActive sess conds = true := by
  unfold DAG.targets DAG.edge
  cases hm : alistGet g.store s with
  | none => simp
  | some m =>
    have hmnd := hwf.2 (s, m) (alistGet_mem _ _ _ hm)
    simp only [List.mem_map, List.mem_filter]
    constructor
    · rintro ⟨kv, ⟨hkv, hact⟩, rfl⟩
      exact ⟨kv.2, alistGet_of_mem m kv.1 kv.2 hmnd hkv, hact⟩
    · rintro ⟨conds, hget, hact⟩
      exact ⟨(t, conds), ⟨alistGet_mem _ _ _ hget, hact⟩, rfl⟩

/-- C4: for every edge present in the graph, the edge is traversable (its
target is enqueued by `subgraph` when its source is dequeued) exactly when at
least one of its conditions resolves true under the session; an edge whose
condition list is empty is never traversable; after `unlink` removes the last
condition the edge persists with an empty list and is not traversable; and
linking a new condition onto that empty edge makes it traversable again
whenever the new condition resolves true. -/
theorem c4_edge_or (g : DAG) (sess : Session) (s t : String)
    (conds : List Computed) (hwf : g.WF) (he : g.edge s t = some conds) :
    (t ∈ g.targets sess s ↔ ∃ c ∈ conds, sess.resolve c = true)
    ∧ (conds = [] → t ∉ g.targets sess s)
    ∧ (∀ c, conds = [c] →
        (g.unlink s t c).edge s t = some []
          ∧ t ∉ (g.unlink s t c).targets sess s)
    ∧ (∀ c c', conds = [c] →
        ((g.unlink s t c).link s t c').edge s t = some [c']
          ∧ (sess.resolve c' = true →
              t ∈ ((g.unlink s t c).link s t c').targets sess s)) := by
  cases hm : alistGet g.store s with
  | none =>
    exfalso
    unfold DAG.edge at he
    rw [hm] at he
    exact Option.noConfusion he
  | some m =>
    have hmt : alistGet m t = some conds := by
      unfold DAG.edge at he
      rw [hm] at he
      exact he
    have hedge : g.edge s t = some conds := he
    have hiff : t ∈ g.targets sess s ↔ ∃ c ∈ conds, sess.resolve c = true := by
      rw [mem_targets_iff g sess s t hwf]
      constructor
      · rintro ⟨cs, hcs, hact⟩
        rw [hedge] at hcs
        injection hcs with h'
        subst h'
        exact (edgeActive_iff sess _).mp hact
      · intro hex
        exact ⟨conds, hedge, (edgeActive_iff sess conds).mpr hex⟩
    refine ⟨hiff, fun h0 hmem => ?_, fun c hc1 => ?_, fun c c' hc1 => ?_⟩
    · rcases hiff.mp hmem with ⟨x, hx, -⟩
      rw [h0] at hx
      simp at hx
    · subst hc1
      have hrw : g.unlink s t c = ⟨alistSet g.store s (alistSet m t [])⟩ := by
        simp [DAG.unlink, hm, hmt]
      have hedge2 : (g.unlink s t c).edge s t = some [] := by
        rw [hrw]
        unfold DAG.edge
        rw [alistGet_set_self]
        exact alistGet_set_self m t []
      refine ⟨hedge2, fun hmem => ?_⟩
      rcases (mem_targets_iff _ sess s t (DAG.WF_unlink g s t c hwf)).mp hmem
        with ⟨cs, hcs, hact⟩
      rw [hedge2] at hcs
      injection hcs with h'
      subst h'
      simp [edgeActive] at hact
    · subst hc1
      have hrw : g.unlink s t c = ⟨alistSet g.store s (alistSet m t [])⟩ := by
        simp [DAG.unlink, hm, hmt]
      have hrw2 : (g.unlink s t c).link s t c'
          = ⟨alistSet (alistSet g.store s (alistSet m t [])) s
              (alistSet (alistSet m t []) t [c'])⟩ := by
        rw [hrw]
        unfold DAG.link
        simp [alistGet_set_self]
      have hedge3 : ((g.unlink s t c).link s t c').edge s t = some [c'] := by
        rw [hrw2]
        unfold DAG.edge
        rw [alistGet_set_self]
        exact alistGet_set_self (alistSet m t []) t [c']
      refine ⟨hedge3, fun hres => ?_⟩
      have hwf3 : ((g.unlink s t c).link s t c').WF :=
        DAG.WF_link _ s t c' (DAG.WF_unlink g s t c hwf)
      exact (mem_targets_iff _ sess s t hwf3).mpr
        ⟨[c'], hedge3, (edgeActive_iff sess [c']).mpr
          ⟨c', List.mem_cons_self c' [], hres⟩⟩

/-- C4 exercised concretely: an edge carrying one false and one true literal
condition is traversable; after `unlink` removes the remaining conditions
down to the empty list the edge persists but is not traversable. -/
theorem c4_witness :
    "b" ∈ (((⟨[]⟩ : DAG).link "a" "b" (Computed.val false)).link "a" "b"
        (Computed.val true)).targets ⟨fun _ => true, none, none⟩ "a"
    ∧ ((((⟨[]⟩ : DAG).link "a" "b" (Computed.val true)).unlink "a" "b"
          (Computed.val true)).edge "a" "b" = some []
        ∧ "b" ∉ (((⟨[]⟩ : DAG).link "a" "b" (Computed.val true)).unlink "a" "b"
          (Computed.val true)).targets ⟨fun _ => true, none, none⟩ "a") := by
  constructor
  · exact (c4_edge_or (((⟨[]⟩ : DAG).link "a" "b" (Computed.val false)).link
        "a" "b" (Computed.val true)) ⟨fun _ => true, none, none⟩ "a" "b"
        [Computed.val false, Computed.val true]
        (by unfold DAG.WF; decide) rfl).1.mpr
      ⟨Computed.val true, by simp, rfl⟩
  · exact (c4_edge_or ((⟨[]⟩ : DAG).link "a" "b" (Computed.val true))
        ⟨fun _ => true, none, none⟩ "a" "b" [Computed.val true]
        (by unfold DAG.WF; decide) rfl).2.2.1 (Computed.val true) rfl

/-! ### Helper lemmas: the breadth-first traversal -/

/-- An empty queue returns the visited set at any fuel. -/
theorem subgraphAux_nil (g : DAG) (sess : Session) (fuel : Nat) (v : List String) :
    subgraphAux g sess fuel [] v = v := by
  cases fuel <;> simp [subgraphAux]

/-- A member's image is no longer than the whole `flatMap`. -/
theorem length_le_flatMap {α β : Type} (l : List α) (f : α → List β) (a : α)
    (h : a ∈ l) : (f a).length ≤ (l.flatMap f).length := by
  induction l with
  | nil => simp at h
  | cons hd tl ih =>
    rcases List.mem_cons.mp h with rfl | h'
    · simp
    · have := ih h'
      simp only [List.flatMap_cons, List.length_append]
      omega

/-- Enqueued targets are recorded targets of the graph. -/
theorem mem_allTargets_of_mem_targets (g : DAG) (sess : Session)
    (node t : String) (h : t ∈ g.targets sess node) : t ∈ g.allTargets := by
  unfold DAG.targets at h
  cases hm : alistGet g.store node with
  | none => rw [hm] at h; simp at h
  | some m =>
    rw [hm] at h
    rcases List.mem_map.mp h with ⟨kv, hkv, rfl⟩
    exact List.mem_flatMap.mpr
      ⟨(node, m), alistGet_mem _ _ _ hm,
        List.mem_map.mpr ⟨kv, List.mem_of_mem_filter hkv, rfl⟩⟩

/-- A node's enqueue burst is bounded by the total number of edge targets. -/
theorem targets_length_le (g : DAG) (sess : Session) (node : String) :
    (g.targets sess node).length ≤ g.allTargets.length := by
  unfold DAG.targets DAG.allTargets
  cases hm : alistGet g.store node with
  | none => simp
  | some m =>
    have h1 : ((m.filter fun kv => edgeActive sess kv.2).map fun kv => kv.1).length
        ≤ (m.map fun kv => kv.1).length := by
      simp only [List.length_map]
      exact List.length_filter_le _ m
    have h2 := length_le_flatMap g.store (fun p => p.2.map fun kv => kv.1)
      (node, m) (alistGet_mem _ _ _ hm)
    exact le_trans h1 h2

/-- The queue length bounds the traversal measure from below. -/
theorem length_le_bfsMeasure (U : Finset String) (T : Nat)
    (q v : List String) : q.length ≤ bfsMeasure U T q v :=
  Nat.le_add_left _ _

/-- Dequeuing an already-visited node reduces the measure by exactly one. -/
theorem bfsMeasure_cons (U : Finset String) (T : Nat) (node : String)
    (rest v : List String) :
    bfsMeasure U T (node :: rest) v = bfsMeasure U T rest v + 1 := by
  unfold bfsMeasure
  rw [List.length_cons]
  ring

/-- Visiting a new node strictly reduces the measure, even after the enqueue
burst, as long as the node lies in the universe and the burst is bounded. -/
theorem bfsMeasure_visit (U : Finset String) (T : Nat) (node : String)
    (rest v targets : List String) (hU : node ∈ U) (hv : node ∉ v)
    (hT : targets.length ≤ T) :
    bfsMeasure U T (rest ++ targets) (v ++ [node]) + 1
      ≤ bfsMeasure U T (node :: rest) v := by
  have hmem : node ∈ U \ v.toFinset :=
    Finset.mem_sdiff.mpr ⟨hU, by simpa using hv⟩
  have hset : (v ++ [node]).toFinset = insert node v.toFinset := by
    rw [List.toFinset_append]
    ext x
    simp [or_comm]
  have hcard : (U \ (v ++ [node]).toFinset).card + 1 = (U \ v.toFinset).card := by
    rw [hset, Finset.sdiff_insert]
    exact Finset.card_erase_add_one hmem
  unfold bfsMeasure
  rw [List.length_append, List.length_cons, ← hcard]
  have hexp : ((U \ (v ++ [node]).toFinset).card + 1) * (T + 1)
      = (U \ (v ++ [node]).toFinset).card * (T + 1) + (T + 1) := by ring
  rw [hexp]
  generalize (U \ (v ++ [node]).toFinset).card * (T + 1) = A
  omega

/-- The visited list only grows: its members appear in the result. -/
theorem bfs_subset (g : DAG) (sess : Session) :
    ∀ fuel q v, ∀ n ∈ v, n ∈ subgraphAux g sess fuel q v := by
  intro fuel
  induction fuel with
  | zero => intro q v n hn; simpa [subgraphAux] using hn
  | succ fuel ih =>
    intro q v n hn
    cases q with
    | nil => simpa [subgraphAux] using hn
    | cons node rest =>
      simp only [subgraphAux]
      by_cases h0 : node = ""
      · rw [if_pos h0]; exact hn
      · rw [if_neg h0]
        by_cases hmem : node ∈ v
        · rw [if_pos hmem]; exact ih rest v n hn
        · rw [if_neg hmem]
          exact ih _ _ n (List.mem_append_left _ hn)

/-- The traversal never records a node twice. -/
theorem bfs_nodup (g : DAG) (sess : Session) :
    ∀ fuel q v, v.Nodup → (subgraphAux g sess fuel q v).Nodup := by
  intro fuel
  induction fuel with
  | zero => intro q v hv; simpa [subgraphAux] using hv
  | succ fuel ih =>
    intro q v hv
    cases q with
    | nil => simpa [subgraphAux] using hv
    | cons node rest =>
      simp only [subgraphAux]
      by_cases h0 : node = ""
      · rw [if_pos h0]; exact hv
      · rw [if_neg h0]
        by_cases hmem : node ∈ v
        · rw [if_pos hmem]; exact ih rest v hv
        · rw [if_neg hmem]
          exact ih _ _ (by simp [List.nodup_append, hv, hmem])

/-- With sufficient fuel, everything on the queue ends up in the result,
provided no queue entry or edge target is the empty string (which would
stop the loop early). -/
theorem bfs_queue_complete (g : DAG) (sess : Session) (U : Finset String)
    (ht : ∀ n ∈ g.allTargets, n ∈ U) (hneT : ∀ n ∈ g.allTargets, n ≠ "") :
    ∀ fuel q v, (∀ n ∈ q, n ∈ U) → (∀ n ∈ q, n ≠ "") →
      bfsMeasure U g.allTargets.length q v ≤ fuel →
      ∀ n ∈ q, n ∈ subgraphAux g sess fuel q v := by
  intro fuel
  induction fuel with
  | zero =>
    intro q v _ _ hfuel n hn
    have := length_le_bfsMeasure U g.allTargets.length q v
    have hq0 : q.length = 0 := by omega
    rw [List.length_eq_zero.mp hq0] at hn
    simp at hn
  | succ fuel ih =>
    intro q v hq hne hfuel n hn
    cases q with
    | nil => simp at hn
    | cons node rest =>
      have hnode : node ≠ "" := hne node (List.mem_cons_self _ _)
      simp only [subgraphAux]
      rw [if_neg hnode]
      by_cases hmem : node ∈ v
      · rw [if_pos hmem]
        rcases List.mem_cons.mp hn with rfl | hn'
        · exact bfs_subset g sess fuel rest v n hmem
        · refine ih rest v (fun x hx => hq x (List.mem_cons_of_mem _ hx))
            (fun x hx => hne x (List.mem_cons_of_mem _ hx)) ?_ n hn'
          rw [bfsMeasure_cons] at hfuel
          omega
      · rw [if_neg hmem]
        have hq' : ∀ x ∈ rest ++ g.targets sess node, x ∈ U := by
          intro x hx
          rcases List.mem_append.mp hx with hx' | hx'
          · exact hq x (List.mem_cons_of_mem _ hx')
          · exact ht x (mem_allTargets_of_mem_targets g sess node x hx')
        have hne' : ∀ x ∈ rest ++ g.targets sess node, x ≠ "" := by
          intro x hx
          rcases List.mem_append.mp hx with hx' | hx'
          · exact hne x (List.mem_cons_of_mem _ hx')
          · exact hneT x (mem_allTargets_of_mem_targets g sess node x hx')
        have hfuel' : bfsMeasure U g.allTargets.length
            (rest ++ g.targets sess node) (v ++ [node]) ≤ fuel := by
          have := bfsMeasure_visit U g.allTargets.length node rest v
            (g.targets sess node) (hq node (List.mem_cons_self _ _)) hmem
            (targets_length_le g sess node)
          omega
        rcases List.mem_cons.mp hn with rfl | hn'
        · exact bfs_subset g sess fuel _ _ n (by simp)
        · exact ih _ _ hq' hne' hfuel' n (List.mem_append_left _ hn')

/-- With sufficient fuel and no empty-string names, the result is closed
under taking active edge targets, given that it starts closed relative to
the queue. -/
theorem bfs_closed (g : DAG) (sess : Session) (U : Finset String)
    (ht : ∀ n ∈ g.allTargets, n ∈ U) (hneT : ∀ n ∈ g.allTargets, n ≠ "") :
    ∀ fuel q v, (∀ n ∈ q, n ∈ U) → (∀ n ∈ q, n ≠ "") →
      bfsMeasure U g.allTargets.length q v ≤ fuel →
      (∀ n ∈ v, ∀ t ∈ g.targets sess n, t ∈ v ∨ t ∈ q) →
      ∀ n ∈ subgraphAux g sess fuel q v, ∀ t ∈ g.targets sess n,
        t ∈ subgraphAux g sess fuel q v := by
  intro fuel
  induction fuel with
  | zero =>
    intro q v _ _ hfuel hinv n hn t htgt
    have := length_le_bfsMeasure U g.allTargets.length q v
    have hq0 : q = [] := List.length_eq_zero.mp (by omega)
    subst hq0
    simp only [subgraphAux] at hn ⊢
    rcases hinv n hn t htgt with h | h
    · exact h
    · simp at h
  | succ fuel ih =>
    intro q v hq hne hfuel hinv n hn t htgt
    cases q with
    | nil =>
      simp only [subgraphAux_nil] at hn ⊢
      rcases hinv n hn t htgt with h | h
      · exact h
      · simp at h
    | cons node rest =>
      have hnode : node ≠ "" := hne node (List.mem_cons_self _ _)
      simp only [subgraphAux] at hn ⊢
      rw [if_neg hnode] at hn ⊢
      by_cases hmem : node ∈ v
      · rw [if_pos hmem] at hn ⊢
        refine ih rest v (fun x hx => hq x (List.mem_cons_of_mem _ hx))
          (fun x hx => hne x (List.mem_cons_of_mem _ hx))
          (by rw [bfsMeasure_cons] at hfuel; omega) ?_ n hn t htgt
        intro m hm u hu
        rcases hinv m hm u hu with h | h
        · exact Or.inl h
        · rcases List.mem_cons.mp h with rfl | h'
          · exact Or.inl hmem
          · exact Or.inr h'
      · rw [if_neg hmem] at hn ⊢
        have hq' : ∀ x ∈ rest ++ g.targets sess node, x ∈ U := by
          intro x hx
          rcases List.mem_append.mp hx with hx' | hx'
          · exact hq x (List.mem_cons_of_mem _ hx')
          · exact ht x (mem_allTargets_of_mem_targets g sess node x hx')
        have hne' : ∀ x ∈ rest ++ g.targets sess node, x ≠ "" := by
          intro x hx
          rcases List.mem_append.mp hx with hx' | hx'
          · exact hne x (List.mem_cons_of_mem _ hx')
          · exact hneT x (mem_allTargets_of_mem_targets g sess node x hx')
        have hfuel' : bfsMeasure U g.allTargets.length
            (rest ++ g.targets sess node) (v ++ [node]) ≤ fuel := by
          have := bfsMeasure_visit U g.allTargets.length node rest v
            (g.targets sess node) (hq node (List.mem_cons_self _ _)) hmem
            (targets_length_le g sess node)
          omega
        refine ih _ _ hq' hne' hfuel' ?_ n hn t htgt
        intro m hm u hu
        rcases List.mem_append.mp hm with hm' | hm'
        · rcases hinv m hm' u hu with h | h
          · exact Or.inl (List.mem_append_left _ h)
          · rcases List.mem_cons.mp h with rfl | h'
            · exact Or.inl (by simp)
            · exact Or.inr (List.mem_append_left _ h')
        · have : m = node := by simpa using hm'
          subst this
          exact Or.inr (List.mem_append_right _ hu)

/-- Above the measure, the traversal's result does not depend on the fuel:
the loop has already reached a stopping point. -/
theorem bfs_stable (g : DAG) (sess : Session) (U : Finset String)
    (ht : ∀ n ∈ g.allTargets, n ∈ U) :
    ∀ f1 f2 q v, (∀ n ∈ q, n ∈ U) →
      bfsMeasure U g.allTargets.length q v ≤ f1 →
      bfsMeasure U g.allTargets.length q v ≤ f2 →
      subgraphAux g sess f1 q v = subgraphAux g sess f2 q v := by
  intro f1
  induction f1 with
  | zero =>
    intro f2 q v _ hf1 _
    have := length_le_bfsMeasure U g.allTargets.length q v
    have hq0 : q = [] := List.length_eq_zero.mp (by omega)
    subst hq0
    rw [subgraphAux_nil, subgraphAux_nil]
  | succ f1 ih =>
    intro f2 q v hq hf1 hf2
    cases q with
    | nil => rw [subgraphAux_nil, subgraphAux_nil]
    | cons node rest =>
      cases f2 with
      | zero =>
        exfalso
        have := length_le_bfsMeasure U g.allTargets.length (node :: rest) v
        simp [List.length_cons] at this
        omega
      | succ f2 =>
        simp only [subgraphAux]
        by_cases h0 : node = ""
        · rw [if_pos h0, if_pos h0]
        · rw [if_neg h0, if_neg h0]
          by_cases hmem : node ∈ v
          · rw [if_pos hmem, if_pos hmem]
            refine ih f2 rest v (fun x hx => hq x (List.mem_cons_of_mem _ hx))
              ?_ ?_ <;> rw [bfsMeasure_cons] at hf1 hf2 <;> omega
          · rw [if_neg hmem, if_neg hmem]
            have hq' : ∀ x ∈ rest ++ g.targets sess node, x ∈ U := by
              intro x hx
              rcases List.mem_append.mp hx with hx' | hx'
              · exact hq x (List.mem_cons_of_mem _ hx')
              · exact ht x (mem_allTargets_of_mem_targets g sess node x hx')
            have hvisit := bfsMeasure_visit U g.allTargets.length node rest v
              (g.targets sess node) (hq node (List.mem_cons_self _ _)) hmem
              (targets_length_le g sess node)
            exact ih f2 _ _ hq' (by omega) (by omega)

/-- The initial measure of a traversal is within the fuel budget that
`DAG.subgraph` allocates. -/
theorem bfsMeasure_init_le (g : DAG) (parents : List String) :
    bfsMeasure (parents.toFinset ∪ g.allTargets.toFinset) g.allTargets.length
      parents [] ≤ fuelBound g parents := by
  unfold bfsMeasure fuelBound
  have h1 : (parents.toFinset ∪ g.allTargets.toFinset).card
      ≤ parents.length + g.allTargets.length :=
    le_trans (Finset.card_union_le _ _)
      (Nat.add_le_add (List.toFinset_card_le _) (List.toFinset_card_le _))
  have h2 : (parents.toFinset ∪ g.allTargets.toFinset).card
        * (g.allTargets.length + 1)
      ≤ (parents.length + g.allTargets.length) * (g.allTargets.length + 1) :=
    Nat.mul_le_mul_right _ h1
  simp only [List.toFinset_nil, Finset.sdiff_empty, List.length_nil]
  omega

/-- C5: the claim is false on the code.  The `while ((node = queue.shift()))`
loop tests JavaScript truthiness, and the empty string is falsy: starting the
traversal from the node `""` stops the loop immediately, so the returned
visited set does not contain this start node. -/
theorem c5_counterexample :
    "" ∈ ([""] : List String)
    ∧ DAG.subgraph ⟨[]⟩ [""] ⟨fun _ => true, none, none⟩ = [] :=
  ⟨List.mem_cons_self _ _, rfl⟩

/-- C5 (amended): provided every start node and every edge target of the
graph is a nonempty string, the traversal contains all start nodes, visits
no node twice, contains every node reachable from a start node through edges
with at least one true condition, and terminates — its result is unchanged
by any additional fuel beyond the allocated budget. -/
theorem c5_amended (g : DAG) (sess : Session) (parents : List String)
    (hp : ∀ n ∈ parents, n ≠ "")
    (hne : ∀ n ∈ g.allTargets, n ≠ "") :
    (∀ s ∈ parents, s ∈ g.subgraph parents sess)
    ∧ (g.subgraph parents sess).Nodup
    ∧ (∀ s n, s ∈ parents → DAG.Reaches g sess s n →
        n ∈ g.subgraph parents sess)
    ∧ (∀ extra, subgraphAux g sess (fuelBound g parents + extra) parents []
        = g.subgraph parents sess) := by
  have hU : ∀ n ∈ parents, n ∈ parents.toFinset ∪ g.allTargets.toFinset := by
    intro n hn
    exact Finset.mem_union_left _ (List.mem_toFinset.mpr hn)
  have hT : ∀ n ∈ g.allTargets, n ∈ parents.toFinset ∪ g.allTargets.toFinset := by
    intro n hn
    exact Finset.mem_union_right _ (List.mem_toFinset.mpr hn)
  have hinit := bfsMeasure_init_le g parents
  have hstart : ∀ s ∈ parents, s ∈ g.subgraph parents sess := fun s hs =>
    bfs_queue_complete g sess _ hT hne (fuelBound g parents) parents [] hU hp
      hinit s hs
  have hclosed : ∀ n ∈ g.subgraph parents sess, ∀ t ∈ g.targets sess n,
      t ∈ g.subgraph parents sess :=
    bfs_closed g sess _ hT hne (fuelBound g parents) parents [] hU hp hinit
      (by simp)
  refine ⟨hstart, bfs_nodup g sess _ _ _ List.nodup_nil, ?_, fun extra => ?_⟩
  · intro s n hs hreach
    induction hreach with
    | refl => exact hstart s hs
    | step hr htgt ih => exact hclosed _ ih _ htgt
  · exact bfs_stable g sess _ hT _ _ parents [] hU (by omega) hinit

/-- C5 (amended) exercised on a concrete one-edge graph: the start node is
visited, its active target is reached, and extra fuel changes nothing. -/
theorem c5_witness :
    "a" ∈ ((⟨[]⟩ : DAG).link "a" "b" (Computed.val true)).subgraph ["a"]
        ⟨fun _ => true, none, none⟩
    ∧ "b" ∈ ((⟨[]⟩ : DAG).link "a" "b" (Computed.val true)).subgraph ["a"]
        ⟨fun _ => true, none, none⟩ := by
  have h := c5_amended ((⟨[]⟩ : DAG).link "a" "b" (Computed.val true))
    ⟨fun _ => true, none, none⟩ ["a"] (by decide) (by decide)
  refine ⟨h.1 "a" (by simp), ?_⟩
  refine h.2.2.1 "a" "b" (by simp) ?_
  exact DAG.Reaches.step (DAG.Reaches.refl "a") (by decide)

/-! ### Helper lemmas: the continuation interpreter -/

/-- Fuel monotonicity: a result reached with some fuel is reached with any
larger fuel. -/
theorem interp_mono (acts : List Body) (fb : Body) (maxD : Nat) :
    ∀ fuel fuel' c st r, interp acts fb maxD fuel c st = some r →
      fuel ≤ fuel' → interp acts fb maxD fuel' c st = some r := by
  intro fuel
  induction fuel with
  | zero => intro fuel' c st r h _; simp [interp] at h
  | succ fuel ih =>
    intro fuel' c st r h hle
    cases fuel' with
    | zero => omega
    | succ fuel2 =>
      have hle2 : fuel ≤ fuel2 := Nat.le_of_succ_le_succ hle
      cases c with
      | next cb =>
        cases cb with
        | none =>
          simp only [interp, Option.isSome_none, Bool.false_and,
            Bool.false_eq_true, if_false] at h ⊢
          cases hq : st.queue[st.index]? with
          | none => rw [hq] at h; exact h
          | some q => rw [hq] at h; exact ih _ _ _ _ h hle2
        | some b =>
          simp only [interp, Option.isSome_some, Bool.true_and] at h ⊢
          by_cases hc : decide (({ st with
              queue := st.queue ++ [QElem.appended b] } : RunSt).queue.length
                > maxD) = true
          · rw [if_pos hc] at h; rw [if_pos hc]; exact h
          · rw [if_neg hc] at h; rw [if_neg hc]
            cases hq : ({ st with queue := st.queue ++ [QElem.appended b] }
                : RunSt).queue[({ st with
                  queue := st.queue ++ [QElem.appended b] } : RunSt).index]? with
            | none => rw [hq] at h; exact h
            | some q => rw [hq] at h; exact ih _ _ _ _ h hle2
      | run b =>
        cases b with
        | ret v => simpa only [interp] using h
        | thrw e => simpa only [interp] using h
        | tailNext cb =>
          simp only [interp] at h ⊢
          exact ih _ _ _ _ h hle2
        | seqNext cb rest =>
          simp only [interp] at h ⊢
          cases hin : interp acts fb maxD fuel (Call.next cb) st with
          | none => rw [hin] at h; exact Option.noConfusion h
          | some pr =>
            obtain ⟨r1, st1⟩ := pr
            rw [hin] at h
            rw [ih _ _ _ _ hin hle2]
            cases r1 with
            | error e => exact h
            | ok v => exact ih _ _ _ _ h hle2

/-- One `argv.next()` step that dequeues an existing queue element. -/
theorem interp_next_none (acts : List Body) (fb : Body) (maxD fuel : Nat)
    (q : List QElem) (i : Nat) (tr : List Ev) (qe : QElem)
    (h : q[i]? = some qe) :
    interp acts fb maxD (fuel + 1) (Call.next none) ⟨q, i, tr⟩
      = interp acts fb maxD fuel (Call.run (qBody acts fb qe).1)
          ⟨q, i + 1, tr ++ [(qBody acts fb qe).2]⟩ := by
  simp [interp, h]

/-- One `argv.next()` step past the end of the queue: the optional chain on
`queue[index++]` yields the nullable result, with the cursor still advanced. -/
theorem interp_next_none_end (acts : List Body) (fb : Body) (maxD fuel : Nat)
    (q : List QElem) (i : Nat) (tr : List Ev) (h : q[i]? = none) :
    interp acts fb maxD (fuel + 1) (Call.next none) ⟨q, i, tr⟩
      = some (Except.ok none, ⟨q, i + 1, tr⟩) := by
  simp [interp, h]

/-- One `argv.next(cb)` step under the depth limit: the composed callback is
appended, then the cursor dequeues as usual. -/
theorem interp_next_some (acts : List Body) (fb : Body) (maxD fuel : Nat)
    (cb : Body) (q : List QElem) (i : Nat) (tr : List Ev) (qe : QElem)
    (hlen : ¬ q.length + 1 > maxD)
    (h : (q ++ [QElem.appended cb])[i]? = some qe) :
    interp acts fb maxD (fuel + 1) (Call.next (some cb)) ⟨q, i, tr⟩
      = interp acts fb maxD fuel (Call.run (qBody acts fb qe).1)
          ⟨q ++ [QElem.appended cb], i + 1, tr ++ [(qBody acts fb qe).2]⟩ := by
  simp [interp, h, hlen]

/-- Running a body that returns. -/
theorem interp_run_ret (acts : List Body) (fb : Body) (maxD fuel : Nat)
    (v : Option String) (st : RunSt) :
    interp acts fb maxD (fuel + 1) (Call.run (Body.ret v)) st
      = some (Except.ok v, st) := rfl

/-- Running a body that throws. -/
theorem interp_run_thrw (acts : List Body) (fb : Body) (maxD fuel : Nat)
    (e : Err) (st : RunSt) :
    interp acts fb maxD (fuel + 1) (Call.run (Body.thrw e)) st
      = some (Except.error e, st) := rfl

/-- Running a body that tail-calls `next`. -/
theorem interp_run_tailNext (acts : List Body) (fb : Body) (maxD fuel : Nat)
    (cb : Option Body) (st : RunSt) :
    interp acts fb maxD (fuel + 1) (Call.run (Body.tailNext cb)) st
      = interp acts fb maxD fuel (Call.next cb) st := rfl

/-- Running a sequencing body whose `next` call returns normally. -/
theorem interp_run_seq (acts : List Body) (fb : Body) (maxD fuel : Nat)
    (cb : Option Body) (rest : Body) (st st' : RunSt) (v : Option String)
    (h : interp acts fb maxD fuel (Call.next cb) st = some (Except.ok v, st')) :
    interp acts fb maxD (fuel + 1) (Call.run (Body.seqNext cb rest)) st
      = interp acts fb maxD fuel (Call.run rest) st' := by
  simp [interp, h]

/-- The static queue has one wrapper per action plus the fallback. -/
theorem staticQueue_length (acts : List Body) :
    (staticQueue acts).length = acts.length + 1 := by
  simp [staticQueue]

/-- Queue positions inside the action range hold the action wrappers. -/
theorem staticQueue_get_lt (acts : List Body) (j : Nat) (h : j < acts.length) :
    (staticQueue acts)[j]? = some (QElem.action j) := by
  rw [staticQueue, List.getElem?_append_left (by simpa using h)]
  simp [List.getElem?_range, h]

/-- The queue position right after the actions holds the fallback. -/
theorem staticQueue_get_len (acts : List Body) :
    (staticQueue acts)[acts.length]? = some QElem.fallback := by
  rw [staticQueue, List.getElem?_append_right (by simp)]
  simp

/-- Appending to the static queue does not disturb existing positions. -/
theorem staticQueue_append_get (acts : List Body) (x : QElem) (j : Nat)
    (h : j < acts.length + 1) :
    (staticQueue acts ++ [x])[j]? = (staticQueue acts)[j]? := by
  rw [List.getElem?_append_left (by simpa [staticQueue_length] using h)]

/-- The appended element sits right after the fallback. -/
theorem staticQueue_append_get_end (acts : List Body) (x : QElem) :
    (staticQueue acts ++ [x])[acts.length + 1]? = some x := by
  rw [List.getElem?_append_right (by simp [staticQueue_length])]
  simp [staticQueue_length]

/-- Running a block of pass-through actions (`tailNext none`, the wrapper
of an action that just chains to `next()`) advances the cursor across the
block, consuming two fuel per action and recording the action events. -/
theorem interp_chain (acts : List Body) (fb : Body) (maxD : Nat) (k : Nat) :
    ∀ fuel j tr, j + k ≤ acts.length →
      (∀ m, j ≤ m → m < j + k →
        acts.getD m (Body.ret none) = Body.tailNext none) →
      interp acts fb maxD (2 * k + fuel + 1) (Call.next none)
          ⟨staticQueue acts, j, tr⟩
        = interp acts fb maxD (fuel + 1) (Call.next none)
            ⟨staticQueue acts, j + k, tr ++ (List.range' j k).map Ev.action⟩ := by
  induction k with
  | zero => intro fuel j tr _ _; simp
  | succ k ihk =>
    intro fuel j tr hjk hchain
    have hj : j < acts.length := by omega
    have heq : 2 * (k + 1) + fuel + 1 = (2 * k + fuel + 2) + 1 := by ring
    rw [heq, interp_next_none acts fb maxD _ _ _ _ _ (staticQueue_get_lt acts j hj)]
    simp only [qBody]
    rw [hchain j (Nat.le_refl j) (by omega)]
    rw [show 2 * k + fuel + 2 = (2 * k + fuel + 1) + 1 from by ring,
      interp_run_tailNext]
    rw [ihk fuel (j + 1) (tr ++ [Ev.action j]) (by omega)
      (fun m hm1 hm2 => hchain m (by omega) (by omega))]
    rw [show j + 1 + k = j + (k + 1) from by ring, List.range'_succ]
    simp

/-- When the interpreter ends in an error with the cursor at the captured
static queue length, `execute` re-throws it, whatever the policy. -/
theorem execute_err_rethrow (cmd : Command) (env : Env) (fb : Body)
    (maxD fuel : Nat) (e : Err) (st : RunSt)
    (hch : ∀ c ∈ cmd.checkers, c.result = none)
    (hne : cmd.actions.length ≠ 0)
    (hrun : interp cmd.actions fb maxD fuel (Call.next none)
        ⟨staticQueue cmd.actions, 0, cmd.checkers.map fun c => Ev.checker c.id⟩
      = some (Except.error e, st))
    (hidx : st.index = cmd.actions.length + 1) :
    cmd.execute env ⟨none⟩ fb maxD fuel = some (Except.error e, st.trace) := by
  simp [Command.execute, jsTruthy, runCheckers_none cmd.checkers [] hch, hne,
    hrun, staticQueue_length, hidx]

/-- When the interpreter ends in an error with the cursor away from the
captured static queue length, `execute` hands it to `handleCaught`. -/
theorem execute_err_caught (cmd : Command) (env : Env) (fb : Body)
    (maxD fuel : Nat) (e : Err) (st : RunSt)
    (hch : ∀ c ∈ cmd.checkers, c.result = none)
    (hne : cmd.actions.length ≠ 0)
    (hrun : interp cmd.actions fb maxD fuel (Call.next none)
        ⟨staticQueue cmd.actions, 0, cmd.checkers.map fun c => Ev.checker c.id⟩
      = some (Except.error e, st))
    (hidx : st.index ≠ cmd.actions.length + 1) :
    cmd.execute env ⟨none⟩ fb maxD fuel
      = some (handleCaught cmd env e, st.trace) := by
  simp [Command.execute, jsTruthy, runCheckers_none cmd.checkers [] hch, hne,
    hrun, staticQueue_length, hidx]

/-- Variant of `interp_run_thrw` for an arbitrary nonzero fuel literal. -/
theorem interp_run_thrw' (acts : List Body) (fb : Body) (maxD fuel : Nat)
    (e : Err) (st : RunSt) (hf : fuel ≠ 0) :
    interp acts fb maxD fuel (Call.run (Body.thrw e)) st
      = some (Except.error e, st) := by
  cases fuel with
  | zero => omega
  | succ f => rfl

/-- Run lemma for a static action that throws: at position `k` of the static
list, preceded by pass-through actions, it ends the interpreter with the
error and the cursor at `k + 1`. -/
theorem interp_static_throw (acts : List Body) (fb : Body) (maxD k : Nat)
    (e : Err) (tr : List Ev)
    (hk : k < acts.length)
    (hchain : ∀ m, m < k → acts.getD m (Body.ret none) = Body.tailNext none)
    (hth : acts.getD k (Body.ret none) = Body.thrw e) :
    interp acts fb maxD (2 * k + 2) (Call.next none)
        ⟨staticQueue acts, 0, tr⟩
      = some (Except.error e,
          ⟨staticQueue acts, k + 1, tr ++ (List.range (k + 1)).map Ev.action⟩) := by
  calc interp acts fb maxD (2 * k + 2) (Call.next none) ⟨staticQueue acts, 0, tr⟩
      = interp acts fb maxD (1 + 1) (Call.next none)
          ⟨staticQueue acts, k, tr ++ (List.range' 0 k).map Ev.action⟩ := by
        have := interp_chain acts fb maxD k 1 0 tr (by omega)
          (fun m _ hm2 => hchain m (by omega))
        simpa using this
    _ = interp acts fb maxD 1 (Call.run (acts.getD k (Body.ret none)))
          ⟨staticQueue acts, k + 1,
            (tr ++ (List.range' 0 k).map Ev.action) ++ [Ev.action k]⟩ := by
        have := interp_next_none acts fb maxD 1 (staticQueue acts) k
          (tr ++ (List.range' 0 k).map Ev.action) (QElem.action k)
          (staticQueue_get_lt acts k hk)
        simpa [qBody] using this
    _ = some (Except.error e,
          ⟨staticQueue acts, k + 1, tr ++ (List.range (k + 1)).map Ev.action⟩) := by
        rw [hth, interp_run_thrw' acts fb maxD 1 e _ (by omega)]
        simp [List.range_succ, List.range_eq_range']

/-- Run lemma for a fallback that throws immediately after pass-through
actions: the cursor stops exactly at the captured static length. -/
theorem interp_fallback_throw (acts : List Body) (maxD : Nat) (e : Err)
    (tr : List Ev)
    (hchain : ∀ m, m < acts.length →
      acts.getD m (Body.ret none) = Body.tailNext none) :
    interp acts (Body.thrw e) maxD (2 * acts.length + 2) (Call.next none)
        ⟨staticQueue acts, 0, tr⟩
      = some (Except.error e,
          ⟨staticQueue acts, acts.length + 1,
            tr ++ (List.range acts.length).map Ev.action ++ [Ev.fallback]⟩) := by
  calc interp acts (Body.thrw e) maxD (2 * acts.length + 2) (Call.next none)
        ⟨staticQueue acts, 0, tr⟩
      = interp acts (Body.thrw e) maxD (1 + 1) (Call.next none)
          ⟨staticQueue acts, acts.length,
            tr ++ (List.range' 0 acts.length).map Ev.action⟩ := by
        have := interp_chain acts (Body.thrw e) maxD acts.length 1 0 tr
          (by omega) (fun m _ hm2 => hchain m (by omega))
        simpa using this
    _ = interp acts (Body.thrw e) maxD 1 (Call.run (Body.thrw e))
          ⟨staticQueue acts, acts.length + 1,
            (tr ++ (List.range' 0 acts.length).map Ev.action) ++ [Ev.fallback]⟩ := by
        have := interp_next_none acts (Body.thrw e) maxD 1 (staticQueue acts)
          acts.length (tr ++ (List.range' 0 acts.length).map Ev.action)
          QElem.fallback (staticQueue_get_len acts)
        simpa [qBody] using this
    _ = some (Except.error e,
          ⟨staticQueue acts, acts.length + 1,
            tr ++ (List.range acts.length).map Ev.action ++ [Ev.fallback]⟩) := by
        rw [interp_run_thrw' acts (Body.thrw e) maxD 1 e _ (by omega)]
        simp [List.range_eq_range']

/-- Run lemma for an appended continuation that throws: the last static
action splices a throwing callback via `next(cb)`, the pass-through fallback
forwards to it, and the error surfaces with the cursor two positions past
the captured static length. -/
theorem interp_appended_throw (acts : List Body) (maxD n : Nat) (e : Err)
    (tr : List Ev)
    (hlen : acts.length = n + 1)
    (hchain : ∀ m, m < n → acts.getD m (Body.ret none) = Body.tailNext none)
    (hlast : acts.getD n (Body.ret none)
      = Body.tailNext (some (Body.thrw e)))
    (hmaxD : n + 3 ≤ maxD) :
    interp acts (Body.tailNext none) maxD (2 * n + 6) (Call.next none)
        ⟨staticQueue acts, 0, tr⟩
      = some (Except.error e,
          ⟨staticQueue acts ++ [QElem.appended (Body.thrw e)], n + 3,
            tr ++ (List.range (n + 1)).map Ev.action
              ++ [Ev.fallback, Ev.appended]⟩) := by
  have hq1 : (staticQueue acts)[n]? = some (QElem.action n) :=
    staticQueue_get_lt acts n (by omega)
  have hq2 : (staticQueue acts ++ [QElem.appended (Body.thrw e)])[n + 1]?
      = some QElem.fallback := by
    rw [staticQueue_append_get acts _ (n + 1) (by omega)]
    rw [show n + 1 = acts.length from hlen.symm]
    exact staticQueue_get_len acts
  have hq3 : (staticQueue acts ++ [QElem.appended (Body.thrw e)])[n + 2]?
      = some (QElem.appended (Body.thrw e)) := by
    have := staticQueue_append_get_end acts (QElem.appended (Body.thrw e))
    rw [hlen] at this
    exact this
  have hpush : ¬ (staticQueue acts).length + 1 > maxD := by
    rw [staticQueue_length, hlen]
    omega
  calc interp acts (Body.tailNext none) maxD (2 * n + 6) (Call.next none)
        ⟨staticQueue acts, 0, tr⟩
      = interp acts (Body.tailNext none) maxD (5 + 1) (Call.next none)
          ⟨staticQueue acts, n, tr ++ (List.range' 0 n).map Ev.action⟩ := by
        have := interp_chain acts (Body.tailNext none) maxD n 5 0 tr
          (by omega) (fun m _ hm2 => hchain m (by omega))
        simpa using this
    _ = interp acts (Body.tailNext none) maxD 5
          (Call.run (acts.getD n (Body.ret none)))
          ⟨staticQueue acts, n + 1,
            (tr ++ (List.range' 0 n).map Ev.action) ++ [Ev.action n]⟩ := by
        have := interp_next_none acts (Body.tailNext none) maxD 5
          (staticQueue acts) n (tr ++ (List.range' 0 n).map Ev.action)
          (QElem.action n) hq1
        simpa [qBody] using this
    _ = interp acts (Body.tailNext none) maxD (4 + 1)
          (Call.run (Body.tailNext (some (Body.thrw e))))
          ⟨staticQueue acts, n + 1,
            (tr ++ (List.range' 0 n).map Ev.action) ++ [Ev.action n]⟩ := by
        rw [hlast]
    _ = interp acts (Body.tailNext none) maxD 4
          (Call.next (some (Body.thrw e)))
          ⟨staticQueue acts, n + 1,
            (tr ++ (List.range' 0 n).map Ev.action) ++ [Ev.action n]⟩ :=
        interp_run_tailNext _ _ _ _ _ _
    _ = interp acts (Body.tailNext none) maxD 3 (Call.run (Body.tailNext none))
          ⟨staticQueue acts ++ [QElem.appended (Body.thrw e)], n + 2,
            ((tr ++ (List.range' 0 n).map Ev.action) ++ [Ev.action n])
              ++ [Ev.fallback]⟩ := by
        have := interp_next_some acts (Body.tailNext none) maxD 3
          (Body.thrw e) (staticQueue acts) (n + 1)
          ((tr ++ (List.range' 0 n).map Ev.action) ++ [Ev.action n])
          QElem.fallback hpush hq2
        simpa [qBody] using this
    _ = interp acts (Body.tailNext none) maxD 2 (Call.next none)
          ⟨staticQueue acts ++ [QElem.appended (Body.thrw e)], n + 2,
            ((tr ++ (List.range' 0 n).map Ev.action) ++ [Ev.action n])
              ++ [Ev.fallback]⟩ :=
        interp_run_tailNext _ _ _ _ _ _
    _ = interp acts (Body.tailNext none) maxD 1 (Call.run (Body.thrw e))
          ⟨staticQueue acts ++ [QElem.appended (Body.thrw e)], n + 3,
            (((tr ++ (List.range' 0 n).map Ev.action) ++ [Ev.action n])
              ++ [Ev.fallback]) ++ [Ev.appended]⟩ := by
        have := interp_next_none acts (Body.tailNext none) maxD 1
          (staticQueue acts ++ [QElem.appended (Body.thrw e)]) (n + 2)
          (((tr ++ (List.range' 0 n).map Ev.action) ++ [Ev.action n])
            ++ [Ev.fallback]) (QElem.appended (Body.thrw e)) hq3
        simpa [qBody] using this
    _ = some (Except.error e,
          ⟨staticQueue acts ++ [QElem.appended (Body.thrw e)], n + 3,
            tr ++ (List.range (n + 1)).map Ev.action
              ++ [Ev.fallback, Ev.appended]⟩) := by
        rw [interp_run_thrw' _ _ _ 1 e _ (by omega)]
        simp [List.range_succ, List.range_eq_range']

/-- C2: the claim is false on the code.  A single static action splices a
throwing callback via `next(cb)`; the error surfaces from the appended
continuation with the cursor past the captured static length, so
`index === length` fails and the error is converted by the `handleError`
policy (here the default `true`, yielding the generic internal-error text)
instead of propagating to the caller as the claim demands. -/
theorem c2_counterexample :
    (Command.mk "foo" [⟨0, none⟩]
        [Body.tailNext (some (Body.thrw (Err.runtime 7)))]
        (HandleError.flag true)).execute ⟨fun p _ => p⟩ ⟨none⟩
        (Body.tailNext none) 5 30
      = some (Except.ok "internal.error-encountered",
          [Ev.checker 0, Ev.action 0, Ev.fallback, Ev.appended]) := rfl

/-- C2 (amended): an exception thrown by a static action while the cursor is
still inside the original action list is caught and converted per the
command's `handleError` policy; an exception thrown directly by the
caller-supplied fallback reaches the handler with the cursor exactly at the
captured static queue length and always propagates uncaught; but an
exception thrown by a continuation appended via `next(cb)` reaches the
handler with the cursor beyond the captured length, so — contrary to the
original claim — it too is converted per the policy rather than propagated. -/
theorem c2_amended :
    (∀ (cmd : Command) (env : Env) (fb : Body) (maxD fuel k : Nat) (e : Err),
      (∀ c ∈ cmd.checkers, c.result = none) →
      k < cmd.actions.length →
      (∀ m, m < k → cmd.actions.getD m (Body.ret none) = Body.tailNext none) →
      cmd.actions.getD k (Body.ret none) = Body.thrw e →
      2 * k + 2 ≤ fuel →
      cmd.execute env ⟨none⟩ fb maxD fuel
        = some (handleCaught cmd env e,
            (cmd.checkers.map fun c => Ev.checker c.id)
              ++ (List.range (k + 1)).map Ev.action))
    ∧ (∀ (cmd : Command) (env : Env) (maxD fuel : Nat) (e : Err),
      (∀ c ∈ cmd.checkers, c.result = none) →
      cmd.actions.length ≠ 0 →
      (∀ m, m < cmd.actions.length →
        cmd.actions.getD m (Body.ret none) = Body.tailNext none) →
      2 * cmd.actions.length + 2 ≤ fuel →
      cmd.execute env ⟨none⟩ (Body.thrw e) maxD fuel
        = some (Except.error e,
            (cmd.checkers.map fun c => Ev.checker c.id)
              ++ (List.range cmd.actions.length).map Ev.action
              ++ [Ev.fallback]))
    ∧ (∀ (cmd : Command) (env : Env) (maxD fuel n : Nat) (e : Err),
      cmd.actions.length = n + 1 →
      (∀ c ∈ cmd.checkers, c.result = none) →
      (∀ m, m < n → cmd.actions.getD m (Body.ret none) = Body.tailNext none) →
      cmd.actions.getD n (Body.ret none) = Body.tailNext (some (Body.thrw e)) →
      n + 3 ≤ maxD →
      2 * n + 6 ≤ fuel →
      cmd.execute env ⟨none⟩ (Body.tailNext none) maxD fuel
        = some (handleCaught cmd env e,
            (cmd.checkers.map fun c => Ev.checker c.id)
              ++ (List.range (n + 1)).map Ev.action
              ++ [Ev.fallback, Ev.appended])) := by
  refine ⟨?_, ?_, ?_⟩
  · intro cmd env fb maxD fuel k e hch hk hchain hth hfuel
    have hrun := interp_mono cmd.actions fb maxD (2 * k + 2) fuel _ _ _
      (interp_static_throw cmd.actions fb maxD k e
        (cmd.checkers.map fun c => Ev.checker c.id) hk hchain hth) hfuel
    exact execute_err_caught cmd env fb maxD fuel e _ hch (by omega) hrun
      (by show k + 1 ≠ cmd.actions.length + 1; omega)
  · intro cmd env maxD fuel e hch hne hchain hfuel
    have hrun := interp_mono cmd.actions (Body.thrw e) maxD
      (2 * cmd.actions.length + 2) fuel _ _ _
      (interp_fallback_throw cmd.actions maxD e
        (cmd.checkers.map fun c => Ev.checker c.id) hchain) hfuel
    exact execute_err_rethrow cmd env (Body.thrw e) maxD fuel e _ hch hne
      hrun rfl
  · intro cmd env maxD fuel n e hlen hch hchain hlast hmaxD hfuel
    have hrun := interp_mono cmd.actions (Body.tailNext none) maxD
      (2 * n + 6) fuel _ _ _
      (interp_appended_throw cmd.actions maxD n e
        (cmd.checkers.map fun c => Ev.checker c.id) hlen hchain hlast hmaxD)
      hfuel
    exact execute_err_caught cmd env (Body.tailNext none) maxD fuel e _ hch
      (by omega) hrun (by show n + 3 ≠ cmd.actions.length + 1; omega)

/-- C2 (amended) exercised on three concrete commands: a static throw is
converted to the internal-error text, a throwing fallback propagates, and a
throwing appended continuation is converted, not propagated. -/
theorem c2_witness :
    (Command.mk "f" [⟨0, none⟩] [Body.thrw (Err.runtime 3)]
        (HandleError.flag true)).execute ⟨fun p _ => p⟩ ⟨none⟩
        (Body.ret none) 5 2
      = some (handleCaught
            (Command.mk "f" [⟨0, none⟩] [Body.thrw (Err.runtime 3)]
              (HandleError.flag true)) ⟨fun p _ => p⟩ (Err.runtime 3),
          [Ev.checker 0, Ev.action 0])
    ∧ (Command.mk "f" [⟨0, none⟩] [Body.tailNext none]
        (HandleError.flag true)).execute ⟨fun p _ => p⟩ ⟨none⟩
        (Body.thrw (Err.runtime 9)) 5 4
      = some (Except.error (Err.runtime 9),
          [Ev.checker 0, Ev.action 0, Ev.fallback])
    ∧ (Command.mk "f" [⟨0, none⟩]
        [Body.tailNext (some (Body.thrw (Err.runtime 7)))]
        (HandleError.flag true)).execute ⟨fun p _ => p⟩ ⟨none⟩
        (Body.tailNext none) 5 6
      = some (handleCaught
            (Command.mk "f" [⟨0, none⟩]
              [Body.tailNext (some (Body.thrw (Err.runtime 7)))]
              (HandleError.flag true)) ⟨fun p _ => p⟩ (Err.runtime 7),
          [Ev.checker 0, Ev.action 0, Ev.fallback, Ev.appended]) := by
  refine ⟨?_, ?_, ?_⟩
  · have h := c2_amended.1 (Command.mk "f" [⟨0, none⟩]
      [Body.thrw (Err.runtime 3)] (HandleError.flag true)) ⟨fun p _ => p⟩
      (Body.ret none) 5 2 0 (Err.runtime 3) (by decide) (by decide)
      (fun m hm => absurd hm (Nat.not_lt_zero m)) rfl (by omega)
    simpa using h
  · have h := c2_amended.2.1 (Command.mk "f" [⟨0, none⟩] [Body.tailNext none]
      (HandleError.flag true)) ⟨fun p _ => p⟩ 5 4 (Err.runtime 9) (by decide)
      (by decide)
      (fun m hm => by
        have hm' : m = 0 := by simpa [Nat.lt_one_iff] using hm
        subst hm'; rfl)
      (by decide)
    simpa using h
  · have h := c2_amended.2.2 (Command.mk "f" [⟨0, none⟩]
      [Body.tailNext (some (Body.thrw (Err.runtime 7)))]
      (HandleError.flag true)) ⟨fun p _ => p⟩ 5 6 0 (Err.runtime 7) rfl
      (by decide) (fun m hm => absurd hm (Nat.not_lt_zero m)) rfl (by omega)
      (by omega)
    simpa using h

/-- C3: the claim is false on the code.  A static action makes four
`next(cb)` calls against `maxD = 5`; the fourth push overflows the queue and
the depth error is thrown synchronously — but it reaches the handler with
the cursor at `4`, away from the captured static length `2`, so the default
`handleError: true` policy absorbs it into the generic internal-error text
instead of propagating it to the invoking caller as the claim demands. -/
theorem c3_counterexample :
    (Command.mk "foo" [⟨0, none⟩]
        [Body.seqNext (some (Body.ret none)) (Body.seqNext (some (Body.ret none))
          (Body.seqNext (some (Body.ret none))
            (Body.seqNext (some (Body.ret none)) (Body.ret none))))]
        (HandleError.flag true)).execute ⟨fun p _ => p⟩ ⟨none⟩
        (Body.ret none) 5 60
      = some (Except.ok "internal.error-encountered",
          [Ev.checker 0, Ev.action 0, Ev.fallback, Ev.appended, Ev.appended]) := rfl

/-- C3 (amended): when a `next(cb)` call would grow the queue beyond the
configured maximum, the depth error is thrown synchronously before the
over-limit continuation executes — the callback is appended but the cursor
and the trace are untouched; the error then behaves like any runtime
exception in `execute`'s handler: it is absorbed per the command's
error-handling policy when it arrives with the cursor away from the captured
static length (the typical case, exhibited by the overflow-from-an-action
scenario), and propagates to the invoking caller only when the cursor equals
that length (exhibited by the overflow-from-the-fallback scenario). -/
theorem c3_amended :
    (∀ (acts : List Body) (fb : Body) (maxD fuel : Nat) (cb : Body)
        (st : RunSt), maxD ≤ st.queue.length →
      interp acts fb maxD (fuel + 1) (Call.next (some cb)) st
        = some (Except.error (Err.depth maxD),
            ⟨st.queue ++ [QElem.appended cb], st.index, st.trace⟩))
    ∧ (∀ (env : Env) (p : HandleError) (fuel : Nat), 12 ≤ fuel →
      (Command.mk "f" [⟨0, none⟩]
          [Body.seqNext (some (Body.ret none))
            (Body.seqNext (some (Body.ret none))
              (Body.seqNext (some (Body.ret none))
                (Body.seqNext (some (Body.ret none)) (Body.ret none))))]
          p).execute env ⟨none⟩ (Body.ret none) 5 fuel
        = some (handleCaught
              (Command.mk "f" [⟨0, none⟩]
                [Body.seqNext (some (Body.ret none))
                  (Body.seqNext (some (Body.ret none))
                    (Body.seqNext (some (Body.ret none))
                      (Body.seqNext (some (Body.ret none)) (Body.ret none))))]
                p) env (Err.depth 5),
            [Ev.checker 0, Ev.action 0, Ev.fallback, Ev.appended, Ev.appended]))
    ∧ (∀ (env : Env) (p : HandleError) (fuel : Nat), 8 ≤ fuel →
      (Command.mk "f" [⟨0, none⟩] [Body.tailNext none] p).execute env ⟨none⟩
          (Body.tailNext (some (Body.ret none))) 2 fuel
        = some (Except.error (Err.depth 2),
            [Ev.checker 0, Ev.action 0, Ev.fallback])) := by
  refine ⟨?_, ?_, ?_⟩
  · intro acts fb maxD fuel cb st hover
    have hc : (st.queue ++ [QElem.appended cb]).length > maxD := by
      simp only [List.length_append, List.length_cons, List.length_nil]
      omega
    simp only [interp, Option.isSome_some, Bool.true_and]
    rw [if_pos (by simpa using hc)]
  · intro env p fuel hfuel
    have hrun : interp
        [Body.seqNext (some (Body.ret none)) (Body.seqNext (some (Body.ret none))
          (Body.seqNext (some (Body.ret none))
            (Body.seqNext (some (Body.ret none)) (Body.ret none))))]
        (Body.ret none) 5 12 (Call.next none)
        ⟨staticQueue [Body.seqNext (some (Body.ret none))
          (Body.seqNext (some (Body.ret none))
            (Body.seqNext (some (Body.ret none))
              (Body.seqNext (some (Body.ret none)) (Body.ret none))))], 0,
          [Ev.checker 0]⟩
        = some (Except.error (Err.depth 5),
            ⟨[QElem.action 0, QElem.fallback, QElem.appended (Body.ret none),
              QElem.appended (Body.ret none), QElem.appended (Body.ret none),
              QElem.appended (Body.ret none)], 4,
              [Ev.checker 0, Ev.action 0, Ev.fallback, Ev.appended,
                Ev.appended]⟩) := rfl
    have hrunF := interp_mono _ _ _ 12 fuel _ _ _ hrun hfuel
    exact execute_err_caught
      (Command.mk "f" [⟨0, none⟩]
        [Body.seqNext (some (Body.ret none))
          (Body.seqNext (some (Body.ret none))
            (Body.seqNext (some (Body.ret none))
              (Body.seqNext (some (Body.ret none)) (Body.ret none))))] p)
      env (Body.ret none) 5 fuel (Err.depth 5)
      ⟨[QElem.action 0, QElem.fallback, QElem.appended (Body.ret none),
        QElem.appended (Body.ret none), QElem.appended (Body.ret none),
        QElem.appended (Body.ret none)], 4,
        [Ev.checker 0, Ev.action 0, Ev.fallback, Ev.appended, Ev.appended]⟩
      (by simp) (by simp) hrunF (by simp)
  · intro env p fuel hfuel
    have hrun : interp [Body.tailNext none]
        (Body.tailNext (some (Body.ret none))) 2 8 (Call.next none)
        ⟨staticQueue [Body.tailNext none], 0, [Ev.checker 0]⟩
        = some (Except.error (Err.depth 2),
            ⟨[QElem.action 0, QElem.fallback, QElem.appended (Body.ret none)],
              2, [Ev.checker 0, Ev.action 0, Ev.fallback]⟩) := rfl
    have hrunF := interp_mono _ _ _ 8 fuel _ _ _ hrun hfuel
    exact execute_err_rethrow
      (Command.mk "f" [⟨0, none⟩] [Body.tailNext none] p) env
      (Body.tailNext (some (Body.ret none))) 2 fuel (Err.depth 2)
      ⟨[QElem.action 0, QElem.fallback, QElem.appended (Body.ret none)], 2,
        [Ev.checker 0, Ev.action 0, Ev.fallback]⟩
      (by simp) (by simp) hrunF rfl

/-- C3 (amended) exercised concretely: an over-limit `next(cb)` throws with
the queue extended but nothing executed, and the two `execute`-level
scenarios are run with the default policy. -/
theorem c3_witness :
    interp [] (Body.ret none) 1 (0 + 1) (Call.next (some (Body.ret none)))
        ⟨[QElem.fallback], 0, []⟩
      = some (Except.error (Err.depth 1),
          ⟨[QElem.fallback, QElem.appended (Body.ret none)], 0, []⟩)
    ∧ (Command.mk "f" [⟨0, none⟩] [Body.tailNext none]
        (HandleError.flag true)).execute ⟨fun p _ => p⟩ ⟨none⟩
        (Body.tailNext (some (Body.ret none))) 2 8
      = some (Except.error (Err.depth 2),
          [Ev.checker 0, Ev.action 0, Ev.fallback]) :=
  ⟨c3_amended.1 [] (Body.ret none) 1 0 (Body.ret none)
      ⟨[QElem.fallback], 0, []⟩ (by decide),
   c3_amended.2.2 ⟨fun p _ => p⟩ (HandleError.flag true) 8 (by omega)⟩
